import Mathlib

/-!
Verification of the memtable skiplist (`skl.go`, given as src/unnamed/part_000).

The embedding is a sequential shallow embedding of the source: the arena is a
list of nodes, cross-node references are offsets (`Nat`, with `0` playing the
role of the null offset and the head sentinel living at offset `1`), and every
source loop becomes a fueled recursion returning `Option` (with `none` for
fuel exhaustion, which the correctness theorems show cannot happen on
well-formed lists).  Atomic CAS operations always succeed on first try in the
sequential semantics, but the retry branches of the source are kept.
-/

set_option maxHeartbeats 2000000

namespace Memtable

/-- Height cap of a tower, source constant `maxHeight = 20`. -/
def maxHeight : Nat := 20

/-- Promotion threshold, source constant `heightIncrease = math.MaxUint32 / 3`. -/
def heightIncrease : Nat := 1431655765

/-- A versioned key: user-key bytes plus a 64-bit version (external type `y.Key`). -/
structure Key where
  userKey : List Nat
  version : Nat
deriving DecidableEq, Repr

/-- Lexicographic byte-string comparison (`bytes.Compare`). -/
def lexComp : List Nat → List Nat → Ordering
  | [], [] => .eq
  | [], _ :: _ => .lt
  | _ :: _, [] => .gt
  | a :: as, b :: bs => if a < b then .lt else if b < a then .gt else lexComp as bs

/-- Modelled from the spec: `y.Key.Compare` (the `y` package is an external
collaborator, not under src/): lexicographic on user key ascending, then
Version descending (newer versions sort first). -/
def Key.comp (k1 k2 : Key) : Ordering :=
  match lexComp k1.userKey k2.userKey with
  | .eq =>
      if k2.version < k1.version then .lt
      else if k1.version < k2.version then .gt
      else .eq
  | o => o

/-- Modelled from the spec: `y.Key.SameUserKey` compares user keys ignoring Version. -/
def Key.sameUserKey (k1 k2 : Key) : Bool := k1.userKey == k2.userKey

/-- A value record (external type `y.ValueStruct`): metadata, user meta,
payload and version. -/
structure ValueStruct where
  meta : Nat
  userMeta : List Nat
  value : List Nat
  version : Nat
deriving DecidableEq, Repr

/-- The zero `y.ValueStruct{}`. -/
def emptyVS : ValueStruct := { meta := 0, userMeta := [], value := [], version := 0 }

/-- Modelled from the spec: the arena encoding of a value (`putVal`/`getVal`)
stores meta, user meta and payload but not the Version, which lives in the key
and is patched back on reads (spec 4.4).  So the stored form has version 0. -/
def storedVal (v : ValueStruct) : ValueStruct := { v with version := 0 }

/-- A skiplist node (source struct `node`): the decoded value word, the key,
the sampled tower height, and the tower of next-offsets (level 0 first,
`0` = null). -/
structure node where
  value : ValueStruct
  key : Key
  height : Nat
  tower : List Nat
deriving DecidableEq, Repr

/-- The skiplist (source struct `skiplist`): current height and the arena,
embedded as the list of allocated nodes.  The node at list index `i` has
offset `i + 1`; offset `0` is null and the head sentinel is the first
allocation, at offset `1`. -/
structure skiplist where
  height : Nat
  nodes : List node
deriving DecidableEq, Repr

/-- Offset of the head sentinel. -/
def headOff : Nat := 1

/-- `arena.getNode`: offset `0` is null. -/
def getNode (s : skiplist) (off : Nat) : Option node :=
  match off with
  | 0 => none
  | o + 1 => s.nodes.get? o

/-- A default node, used to totalize lookups that cannot dangle on
well-formed lists. -/
def dummyNode : node :=
  { value := emptyVS, key := { userKey := [], version := 0 }, height := 0, tower := [] }

/-- Total node lookup. -/
def nodeAt (s : skiplist) (off : Nat) : node := (getNode s off).getD dummyNode

/-- `node.key` resolved through the arena. -/
def keyOf (s : skiplist) (off : Nat) : Key := (nodeAt s off).key

/-- The decoded value word of a node. -/
def valOf (s : skiplist) (off : Nat) : ValueStruct := (nodeAt s off).value

/-- `getNext` as an offset: `nd.tower[h]`, with `0` when absent. -/
def nextOffS (s : skiplist) (off level : Nat) : Nat :=
  (nodeAt s off).tower.getD level 0

/-- Replace the node stored at an offset (no-op for null or out of range). -/
def updNode (ns : List node) (off : Nat) (f : node → node) : List node :=
  match off, ns with
  | 0, _ => ns
  | _ + 1, [] => []
  | 1, n :: rest => f n :: rest
  | o + 2, n :: rest => n :: updNode rest (o + 1) f

/-- Store `target` into `tower[level]` of the node at `off` (a tower-slot CAS
write in the source). -/
def setTower (ns : List node) (off level target : Nat) : List node :=
  updNode ns off (fun n => { n with tower := n.tower.set level target })

/-- `node.setValue`: atomically replace the value word. -/
def setValueAt (ns : List node) (off : Nat) (v : ValueStruct) : List node :=
  updNode ns off (fun n => { n with value := storedVal v })

/-- `newNode` for the head sentinel: zero key, zero value, full height. -/
def headNode : node :=
  { value := storedVal emptyVS
    key := { userKey := [], version := 0 }
    height := maxHeight
    tower := List.replicate maxHeight 0 }

/-- `newSkiplist`: a head sentinel of maximum height and list height 1. -/
def newSkiplist : skiplist := { height := 1, nodes := headNode :: [] }

/-- `randomHeight`, parameterized by the stream of `FastRand` draws: start at
1 and promote while the draw is at most `heightIncrease`, capped at
`maxHeight`. -/
def randomHeightFrom : Nat → List Nat → Nat
  | h, [] => h
  | h, d :: ds => if h < maxHeight && d ≤ heightIncrease then randomHeightFrom (h + 1) ds else h

/-- `randomHeight` from a draw stream. -/
def randomHeight (draws : List Nat) : Nat := randomHeightFrom 1 draws

/-- The chain of node offsets reachable from `off` (inclusive) at a level,
cut off by fuel. -/
def chainAux (s : skiplist) (level : Nat) : Nat → Nat → List Nat
  | 0, _ => []
  | _ + 1, 0 => []
  | fuel + 1, o + 1 => (o + 1) :: chainAux s level fuel (nextOffS s (o + 1) level)

/-- The per-level chain of the skiplist: offsets reachable from the head at
`level`, head excluded. -/
def chainL (s : skiplist) (level : Nat) : List Nat :=
  chainAux s level (s.nodes.length + 1) (nextOffS s headOff level)

/-- `l` is exactly the chain starting at offset `off` at the given level,
terminating in the null offset. -/
def IsChainFrom (s : skiplist) (level : Nat) : Nat → List Nat → Prop
  | off, [] => off = 0
  | off, o :: rest => off = o ∧ o ≠ 0 ∧ IsChainFrom s level (nextOffS s o level) rest

instance instDecIsChainFrom (s : skiplist) (level : Nat) :
    (off : Nat) → (l : List Nat) → Decidable (IsChainFrom s level off l)
  | off, [] => by unfold IsChainFrom; infer_instance
  | off, o :: rest =>
      have : Decidable (IsChainFrom s level (nextOffS s o level) rest) :=
        instDecIsChainFrom s level _ rest
      by unfold IsChainFrom; infer_instance

/-- `findNear` (source lines 175-248), as a fueled loop over the state
`(x, level, afterNode)`.  Result `none` is fuel exhaustion; otherwise the
returned pair is the found node (as `Option`, `none` for the source's nil)
and the equal-key flag. -/
def findNearAux (s : skiplist) (key : Key) (less allowEqual : Bool) :
    Nat → Nat → Nat → Option Nat → Option (Option Nat × Bool)
  | 0, _, _, _ => none
  | fuel + 1, x, level, afterNode =>
    let next := nextOffS s x level
    if next = 0 then
      if 0 < level then findNearAux s key less allowEqual fuel x (level - 1) afterNode
      else if !less then some (none, false)
      else if x = headOff then some (none, false)
      else some (some x, false)
    else
      let cmp : Ordering :=
        if afterNode = some next then .lt else key.comp (keyOf s next)
      match cmp with
      | .gt => findNearAux s key less allowEqual fuel next level afterNode
      | .eq =>
        if allowEqual then some (some next, true)
        else if !less then
          let n0 := nextOffS s next 0
          some (if n0 = 0 then none else some n0, false)
        else if 0 < level then findNearAux s key less allowEqual fuel x (level - 1) afterNode
        else if x = headOff then some (none, false)
        else some (some x, false)
      | .lt =>
        if 0 < level then findNearAux s key less allowEqual fuel x (level - 1) (some next)
        else if !less then some (some next, false)
        else if x = headOff then some (none, false)
        else some (some x, false)

/-- `findNear`, started at the head at the current top level with ample fuel. -/
def findNear (s : skiplist) (key : Key) (less allowEqual : Bool) :
    Option (Option Nat × Bool) :=
  findNearAux s key less allowEqual (s.nodes.length + maxHeight + 2) headOff (s.height - 1) none

/-- `findSpliceForLevel` (source lines 254-268): walk right from `before`
while the next key is below `key`; returns `(before, next, match)`. -/
def findSpliceAux (s : skiplist) (key : Key) (level : Nat) :
    Nat → Nat → Option (Nat × Nat × Bool)
  | 0, _ => none
  | fuel + 1, before =>
    let next := nextOffS s before level
    if next = 0 then some (before, 0, false)
    else
      match key.comp (keyOf s next) with
      | .gt => findSpliceAux s key level fuel next
      | .eq => some (before, next, true)
      | .lt => some (before, next, false)

/-- `findSpliceForLevel` with ample fuel. -/
def findSpliceForLevel (s : skiplist) (key : Key) (before level : Nat) :
    Option (Nat × Nat × Bool) :=
  findSpliceAux s key level (s.nodes.length + 1) before

/-- The splice cache (source struct `hint`); `prev`/`next` hold node offsets
(`0` = nil pointer). -/
structure hint where
  height : Nat
  hitHeight : Nat
  prev : List Nat
  next : List Nat
deriving DecidableEq, Repr

/-- A freshly zeroed hint (`new(hint)`). -/
def freshHint : hint :=
  { height := 0, hitHeight := 0
    prev := List.replicate (maxHeight + 1) 0
    next := List.replicate (maxHeight + 1) 0 }

/-- The inner skip of `calculateRecomputeHeight`: advance while the cached
array entry still holds the same node. -/
def crhSkip (arr : List Nat) (p : Nat) : Nat → Nat → Nat
  | 0, rh => rh
  | fuel + 1, rh => if arr.getD rh 0 = p then crhSkip arr p fuel (rh + 1) else rh

/-- The validity-climbing loop of `calculateRecomputeHeight`
(source lines 304-329). -/
def crhLoop (s : skiplist) (key : Key) (h : hint) (listHeight : Nat) :
    Nat → Nat → Nat
  | 0, rh => rh
  | fuel + 1, rh =>
    if rh < listHeight then
      let prevNode := h.prev.getD rh 0
      let nextNode := h.next.getD rh 0
      let prevNext := nextOffS s prevNode rh
      if prevNext ≠ nextNode then crhLoop s key h listHeight fuel (rh + 1)
      else if prevNode ≠ headOff ∧ prevNode ≠ 0 ∧ key.comp (keyOf s prevNode) ≠ .gt then
        crhLoop s key h listHeight fuel (crhSkip h.prev prevNode (maxHeight + 2) rh)
      else if nextNode ≠ 0 ∧ key.comp (keyOf s nextNode) = .gt then
        crhLoop s key h listHeight fuel (crhSkip h.next nextNode (maxHeight + 2) rh)
      else rh
    else rh

/-- `calculateRecomputeHeight` (source lines 291-332): returns the recompute
height together with the updated hint. -/
def calculateRecomputeHeight (s : skiplist) (key : Key) (h : hint) (listHeight : Nat) :
    Nat × hint :=
  if h.height < listHeight then
    (listHeight,
      { h with
        prev := h.prev.set listHeight headOff
        next := h.next.set listHeight 0
        height := listHeight
        hitHeight := listHeight })
  else
    let rh := crhLoop s key h listHeight (maxHeight + 2) (h.hitHeight - 2)
    (rh, { h with hitHeight := rh })

/-- The splice-recomputation descent shared by `PutWithHint` (lines 356-369)
and `GetWithHint` (lines 412-423): process levels `n-1` down to 0, recording
each level's splice in the hint; stop with the matching offset and its level
on an exact-key match. -/
def spliceLoop (s : skiplist) (key : Key) : Nat → hint → Option (hint × Option (Nat × Nat))
  | 0, h => some (h, none)
  | n + 1, h =>
    match findSpliceForLevel s key (h.prev.getD (n + 1) 0) n with
    | none => none
    | some (b, a, m) =>
      let h := { h with prev := h.prev.set n b, next := h.next.set n a }
      if m then some (h, some (a, n)) else spliceLoop s key n h

/-- The copy-down loop after an in-place update (source lines 362-366). -/
def copyDown (h : hint) : Nat → hint
  | 0 => h
  | i + 1 =>
    copyDown
      { h with
        prev := h.prev.set i (h.prev.getD (i + 1) 0)
        next := h.next.set i (h.next.getD (i + 1) 0) } i

/-- Linking one level of a new node (source lines 378-392): set
`x.tower[i]`, then CAS `prev[i].tower[i]` from `next[i]` to `x`; on CAS
failure recompute the splice and retry, invalidating the hint above level 0. -/
def linkLevel (key : Key) (xOff i : Nat) :
    Nat → skiplist → hint → Bool → Option (skiplist × hint × Bool)
  | 0, _, _, _ => none
  | fuel + 1, s, h, inv =>
    let nxt := h.next.getD i 0
    let s1 : skiplist := { s with nodes := setTower s.nodes xOff i nxt }
    let p := h.prev.getD i 0
    if nextOffS s1 p i = nxt then
      some ({ s1 with nodes := setTower s1.nodes p i xOff }, h, inv)
    else
      match findSpliceForLevel s1 key p i with
      | none => none
      | some (b, a, _) =>
        linkLevel key xOff i fuel s1
          { h with prev := h.prev.set i b, next := h.next.set i a }
          (inv || decide (0 < i))

/-- Link the new node at levels `i, i+1, …` while `cnt` levels remain
(source loop lines 377-393). -/
def linkLoop (key : Key) (xOff : Nat) :
    Nat → Nat → skiplist → hint → Bool → Option (skiplist × hint × Bool)
  | _, 0, s, h, inv => some (s, h, inv)
  | i, cnt + 1, s, h, inv =>
    match linkLevel key xOff i (s.nodes.length + 2) s h inv with
    | none => none
    | some (s', h', inv') => linkLoop key xOff (i + 1) cnt s' h' inv'

/-- The hint refresh after a successful insert with a still-valid splice
(source lines 394-399). -/
def refreshHint (s : skiplist) (h : hint) (xOff : Nat) : Nat → hint
  | 0 => h
  | i + 1 =>
    { refreshHint s h xOff i with
      prev := (refreshHint s h xOff i).prev.set i xOff
      next := (refreshHint s h xOff i).next.set i (nextOffS s xOff i) }

/-- Package the (possibly scratch) hint for return: the caller's hint is
mutated in place in the source, a scratch hint is dropped. -/
def hintOut (ho : Option hint) (h : hint) : Option hint :=
  if ho.isSome then some h else none

/-- `PutWithHint` (source lines 335-402), sequential semantics: the height
CAS and each tower CAS succeed against the current state; `none` only on fuel
exhaustion (impossible on well-formed lists). -/
def PutWithHint (s : skiplist) (draws : List Nat) (key : Key) (v : ValueStruct)
    (ho : Option hint) : Option (skiplist × Option hint) :=
  let height := randomHeight draws
  let listHeight := max s.height height
  let s : skiplist := { s with height := listHeight }
  let h0 := ho.getD freshHint
  let rhh := calculateRecomputeHeight s key h0 listHeight
  match spliceLoop s key rhh.1 rhh.2 with
  | none => none
  | some (h1, some (off, i)) =>
      some ({ s with nodes := setValueAt s.nodes off v }, hintOut ho (copyDown h1 i))
  | some (h1, none) =>
      let xOff := s.nodes.length + 1
      let x : node :=
        { value := storedVal v, key := key, height := height
          tower := List.replicate maxHeight 0 }
      let s1 : skiplist := { s with nodes := s.nodes ++ x :: [] }
      match linkLoop key xOff 0 height s1 h1 false with
      | none => none
      | some (s2, h2, invalidated) =>
        let h3 :=
          if ho.isSome && !invalidated then refreshHint s2 h2 xOff height
          else { h2 with height := 0 }
        some (s2, hintOut ho h3)

/-- `Put`: insert with a nil hint. -/
def Put (s : skiplist) (draws : List Nat) (key : Key) (v : ValueStruct) :
    Option (skiplist × Option hint) :=
  PutWithHint s draws key v none

/-- The fill loop of `GetWithHint` after a match (source lines 417-419):
set `prev[j] := n`, `next[j] := next(n, j)` for `j = i` down to 0. -/
def gwhFill (s : skiplist) (nOff : Nat) : Nat → hint → hint
  | 0, h =>
    { h with prev := h.prev.set 0 nOff, next := h.next.set 0 (nextOffS s nOff 0) }
  | j + 1, h =>
    gwhFill s nOff j
      { h with
        prev := h.prev.set (j + 1) nOff
        next := h.next.set (j + 1) (nextOffS s nOff (j + 1)) }

/-- `GetWithHint` (source lines 404-438). -/
def GetWithHint (s : skiplist) (key : Key) (ho : Option hint) :
    Option (ValueStruct × hint) :=
  let h0 := ho.getD freshHint
  let listHeight := s.height
  let rhh := calculateRecomputeHeight s key h0 listHeight
  let step : Option (hint × Nat) :=
    if 0 < rhh.1 then
      match spliceLoop s key rhh.1 rhh.2 with
      | none => none
      | some (h1, none) => some (h1, 0)
      | some (h1, some (a, i)) => some (gwhFill s a i h1, a)
    else some (rhh.2, rhh.2.next.getD 0 0)
  match step with
  | none => none
  | some (h2, n) =>
    if n = 0 then some (emptyVS, h2)
    else
      let nk := keyOf s n
      if key.sameUserKey nk then some ({ valOf s n with version := nk.version }, h2)
      else some (emptyVS, h2)

/-- `Get` (source lines 468-483): greater-or-equal search, user-key check,
version patched from the found key. -/
def Get (s : skiplist) (key : Key) : Option ValueStruct :=
  match findNear s key false true with
  | none => none
  | some (n?, _) =>
    match n? with
    | none => some emptyVS
    | some off =>
      let nk := keyOf s off
      if key.sameUserKey nk then some ({ valOf s off with version := nk.version })
      else some emptyVS

/-- `findLast` (source lines 447-464). -/
def findLastAux (s : skiplist) : Nat → Nat → Nat → Option (Option Nat)
  | 0, _, _ => none
  | fuel + 1, n, level =>
    let next := nextOffS s n level
    if next ≠ 0 then findLastAux s fuel next level
    else if level = 0 then some (if n = headOff then none else some n)
    else findLastAux s fuel n (level - 1)

/-- `findLast` with ample fuel. -/
def findLast (s : skiplist) : Option (Option Nat) :=
  findLastAux s (s.nodes.length + maxHeight + 2) headOff (s.height - 1)

/-- `Empty`: no last element. -/
def Empty (s : skiplist) : Option Bool :=
  (findLast s).map (fun r => r.isNone)

/-- An iterator is its current node offset (`0` = nil). -/
structure Iter where
  n : Nat
deriving DecidableEq, Repr

/-- `Iterator.Valid`. -/
def iterValid (it : Iter) : Bool := it.n ≠ 0

/-- `Iterator.Key`. -/
def iterKey (s : skiplist) (it : Iter) : Key := keyOf s it.n

/-- `Iterator.Next` (precondition: valid). -/
def iterNext (s : skiplist) (it : Iter) : Iter := { n := nextOffS s it.n 0 }

/-- `Iterator.SeekToFirst`. -/
def seekToFirst (s : skiplist) : Iter := { n := nextOffS s headOff 0 }

/-- `Iterator.Seek`: first entry with key at least the target. -/
def iterSeek (s : skiplist) (target : Key) : Option Iter :=
  (findNear s target false true).map (fun r => { n := r.1.getD 0 })

/-- The keys visited by repeatedly calling `Next` from a start position while
`Valid`. -/
def iterTrace (s : skiplist) : Nat → Iter → List Key
  | 0, _ => []
  | fuel + 1, it =>
    if iterValid it then iterKey s it :: iterTrace s fuel (iterNext s it) else []

/-- All keys of a forward iteration from `SeekToFirst`. -/
def forwardKeys (s : skiplist) : List Key :=
  iterTrace s (s.nodes.length + 1) (seekToFirst s)

/-- Modelled from the spec: `arena.reset` (arena.go is not under src/) rewinds
the allocation cursor of an existing arena (spec 4.1); `Delete` calls it
through `s.arena`, then nulls `arena` and `head` (source lines 87-93).  A
skiplist handle is `some` while the arena reference is live and `none` after
tear-down; invoking `reset` through a nil arena reference faults, modelled as
result `none`. -/
def Delete : Option skiplist → Option (Option skiplist)
  | some _ => some none
  | none => none

/-- `skiplist.valid`: the arena reference is still live. -/
def validRef : Option skiplist → Bool := Option.isSome

/-! ### Well-formedness -/

/-- The strict key order between two offsets of a skiplist. -/
def offLt (s : skiplist) (a b : Nat) : Prop := (keyOf s a).comp (keyOf s b) = .lt

instance (s : skiplist) (a b : Nat) : Decidable (offLt s a b) := by
  unfold offLt; infer_instance

/-- A single level's chain is complete, made of valid non-head offsets, and
strictly ascending. -/
def ChainOK (s : skiplist) (level : Nat) : Prop :=
  IsChainFrom s level (nextOffS s headOff level) (chainL s level) ∧
  (∀ o ∈ chainL s level, 2 ≤ o ∧ o ≤ s.nodes.length) ∧
  (chainL s level).Pairwise (offLt s)

instance (s : skiplist) (level : Nat) : Decidable (ChainOK s level) := by
  unfold ChainOK; infer_instance

/-- Well-formedness of a skiplist state: the structural invariants of
spec 3, phrased on the per-level chains. -/
def WF (s : skiplist) : Prop :=
  s.nodes ≠ [] ∧
  1 ≤ s.height ∧ s.height ≤ maxHeight ∧
  (∀ level < maxHeight, ChainOK s level) ∧
  (∀ level < maxHeight, s.height ≤ level → chainL s level = []) ∧
  (∀ level < maxHeight, 0 < level → (chainL s level).Sublist (chainL s (level - 1))) ∧
  (∀ o < s.nodes.length + 1, 2 ≤ o → o ∈ chainL s 0) ∧
  (∀ o < s.nodes.length + 1, 1 ≤ o → (nodeAt s o).tower.length = maxHeight)

instance (s : skiplist) : Decidable (WF s) := by
  unfold WF; infer_instance

/-- The canonical splice of `key` at one level: the chain splits into an
all-greater prefix and an at-most remainder, `b` closes the prefix (head when
empty), and `a` is `b`'s successor, opening the remainder. -/
def SpliceAt (s : skiplist) (key : Key) (i b a : Nat) : Prop :=
  ∃ P S, chainL s i = P ++ S ∧
    (∀ o ∈ P, key.comp (keyOf s o) = .gt) ∧
    (∀ o ∈ S, key.comp (keyOf s o) ≠ .gt) ∧
    b = P.getLastD headOff ∧
    a = S.head?.getD 0 ∧
    nextOffS s b i = a

/-! ### Specification-side search targets

These definitions follow the spec's words for the four `find_near` queries and
for `get`; the theorems below compare the source-translated functions against
them. -/

/-- The spec's answer for `find_near`: on the base-level chain, the leftmost
node with key strictly above (resp. at least) the target, or the rightmost
node with key strictly below (resp. at most) the target. -/
def targetNode (s : skiplist) (key : Key) (less allowEqual : Bool) : Option Nat :=
  let l := chainL s 0
  match less, allowEqual with
  | false, false => l.find? (fun o => key.comp (keyOf s o) == .lt)
  | false, true => l.find? (fun o => key.comp (keyOf s o) != .gt)
  | true, false => (l.filter (fun o => key.comp (keyOf s o) == .gt)).getLast?
  | true, true => (l.filter (fun o => key.comp (keyOf s o) != .lt)).getLast?

/-- The spec's answer for the boolean returned by `find_near`: the found
node's key compares equal to the search key. -/
def targetBool (s : skiplist) (key : Key) (n? : Option Nat) : Bool :=
  match n? with
  | some o => key.comp (keyOf s o) == .eq
  | none => false

/-- The spec's answer for `get` (spec 4.4): resolve the leftmost base-chain
node with key at least the target; on a user-key match return its value with
the Version patched from the node's key, else the empty value. -/
def getSpec (s : skiplist) (key : Key) : ValueStruct :=
  match (chainL s 0).find? (fun o => key.comp (keyOf s o) != .gt) with
  | none => emptyVS
  | some off =>
    if key.sameUserKey (keyOf s off) then { valOf s off with version := (keyOf s off).version }
    else emptyVS

/-! ### Concrete scenario inputs used by the failing-input and witness
theorems -/

/-- A `FastRand` draw above `heightIncrease`: the sampled height stays 1. -/
def dBig : Nat := 2000000000

/-- Key `"c"@1`. -/
def kc : Key := { userKey := 99 :: [], version := 1 }

/-- Key `"a"@1`. -/
def ka : Key := { userKey := 97 :: [], version := 1 }

/-- Key `"a"@2`. -/
def ka2 : Key := { userKey := 97 :: [], version := 2 }

/-- A concrete value. -/
def vc1 : ValueStruct := { meta := 1, userMeta := [], value := 10 :: [], version := 0 }

/-- A concrete value. -/
def vc2 : ValueStruct := { meta := 1, userMeta := [], value := 11 :: [], version := 0 }

/-- A concrete value. -/
def va : ValueStruct := { meta := 1, userMeta := [], value := 12 :: [], version := 0 }

/-- Run a script of `PutWithHint` calls threading one caller-owned hint, as a
sequential caller would. -/
def runPuts : Option (skiplist × hint) → List (List Nat × Key × ValueStruct) →
    Option (skiplist × hint)
  | none, _ => none
  | some (s, h), [] => some (s, h)
  | some (s, h), (draws, k, v) :: rest =>
    match PutWithHint s draws k v (some h) with
    | some (s', some h') => runPuts (some (s', h')) rest
    | _ => none

/-- The failing input for the overwrite invariant: put `"c"@1`, put `"a"@1`,
then put `"c"@1` again, all through one caller hint with height-1 draws. -/
def c1run : Option (skiplist × hint) :=
  runPuts (some (newSkiplist, freshHint))
    ((dBig :: [], kc, vc1) :: (dBig :: [], ka, va) :: (dBig :: [], kc, vc2) :: [])

/-- One put of `"a"@1` with a nil hint, for the `GetWithHint` counterexample. -/
def c10s : Option (skiplist × Option hint) := Put newSkiplist (dBig :: []) ka va

/-- Project the skiplist out of an operation result. -/
def resSk (r : Option (skiplist × Option hint)) : skiplist := (r.map Prod.fst).getD newSkiplist

/-- Key `"k"@3` (user key byte 107). -/
def k3 : Key := { userKey := 107 :: [], version := 3 }

/-- Key `"k"@7`. -/
def k7 : Key := { userKey := 107 :: [], version := 7 }

/-- The older value of the version-ordering scenario. -/
def vold : ValueStruct := { meta := 0, userMeta := [], value := 1 :: [], version := 0 }

/-- The newer value of the version-ordering scenario. -/
def vnew : ValueStruct := { meta := 0, userMeta := [], value := 2 :: [], version := 0 }

/-- The version-ordering scenario: put `"k"@3` old, then `"k"@7` new, with
nil hints. -/
def c3run : Option (skiplist × Option hint) :=
  match Put newSkiplist (dBig :: []) k3 vold with
  | some (s1, _) => Put s1 (dBig :: []) k7 vnew
  | none => none

/-! ### Theorems -/

/-! #### Order lemmas for `lexComp` and `Key.comp` -/

theorem lexComp_eq_iff : ∀ a b : List Nat, lexComp a b = .eq ↔ a = b
  | [], [] => by simp [lexComp]
  | [], _ :: _ => by simp [lexComp]
  | _ :: _, [] => by simp [lexComp]
  | x :: xs, y :: ys => by
    unfold lexComp
    rcases Nat.lt_trichotomy x y with h | h | h
    · rw [if_pos h]
      constructor
      · intro hc; exact absurd hc (by simp)
      · intro hc; injection hc with h1 _; omega
    · subst h
      rw [if_neg (lt_irrefl x), if_neg (lt_irrefl x)]
      rw [lexComp_eq_iff xs ys]
      constructor
      · intro hc; rw [hc]
      · intro hc; injection hc
    · rw [if_neg (Nat.lt_asymm h), if_pos h]
      constructor
      · intro hc; exact absurd hc (by simp)
      · intro hc; injection hc with h1 _; omega

theorem lexComp_swap : ∀ a b : List Nat, lexComp b a = (lexComp a b).swap
  | [], [] => rfl
  | [], _ :: _ => rfl
  | _ :: _, [] => rfl
  | x :: xs, y :: ys => by
    unfold lexComp
    rcases Nat.lt_trichotomy x y with h | h | h
    · rw [if_pos h, if_neg (Nat.lt_asymm h), if_pos h]; rfl
    · subst h
      simp only [if_neg (lt_irrefl x)]
      exact lexComp_swap xs ys
    · rw [if_pos h, if_neg (Nat.lt_asymm h), if_pos h]; rfl

theorem lexComp_lt_trans : ∀ a b c : List Nat,
    lexComp a b = .lt → lexComp b c = .lt → lexComp a c = .lt
  | [], [], _, h1, _ => by simp [lexComp] at h1
  | [], _ :: _, [], _, h2 => by simp [lexComp] at h2
  | [], _ :: _, _ :: _, _, _ => by simp [lexComp]
  | _ :: _, [], _, h1, _ => by simp [lexComp] at h1
  | _ :: _, _ :: _, [], _, h2 => by simp [lexComp] at h2
  | x :: xs, y :: ys, z :: zs, h1, h2 => by
    unfold lexComp at h1 h2 ⊢
    rcases Nat.lt_trichotomy x y with hxy | hxy | hxy
    · rcases Nat.lt_trichotomy y z with hyz | hyz | hyz
      · rw [if_pos (Nat.lt_trans hxy hyz)]
      · subst hyz; rw [if_pos hxy]
      · rw [if_neg (Nat.lt_asymm hyz), if_pos hyz] at h2; exact absurd h2 (by simp)
    · subst hxy
      rw [if_neg (lt_irrefl x), if_neg (lt_irrefl x)] at h1
      rcases Nat.lt_trichotomy x z with hyz | hyz | hyz
      · rw [if_pos hyz]
      · subst hyz
        rw [if_neg (lt_irrefl x), if_neg (lt_irrefl x)] at h2 ⊢
        exact lexComp_lt_trans xs ys zs h1 h2
      · rw [if_neg (Nat.lt_asymm hyz), if_pos hyz] at h2; exact absurd h2 (by simp)
    · rw [if_neg (Nat.lt_asymm hxy), if_pos hxy] at h1; exact absurd h1 (by simp)

theorem Key.comp_of_lex_eq {k1 k2 : Key} (h : lexComp k1.userKey k2.userKey = .eq) :
    k1.comp k2 =
      (if k2.version < k1.version then .lt
       else if k1.version < k2.version then .gt else .eq) := by
  unfold Key.comp; rw [h]

theorem Key.comp_of_lex_lt {k1 k2 : Key} (h : lexComp k1.userKey k2.userKey = .lt) :
    k1.comp k2 = .lt := by
  unfold Key.comp; rw [h]

theorem Key.comp_of_lex_gt {k1 k2 : Key} (h : lexComp k1.userKey k2.userKey = .gt) :
    k1.comp k2 = .gt := by
  unfold Key.comp; rw [h]

theorem lexComp_self (a : List Nat) : lexComp a a = .eq := (lexComp_eq_iff a a).mpr rfl

theorem Key.comp_eq_iff (k1 k2 : Key) : k1.comp k2 = .eq ↔ k1 = k2 := by
  cases heq : lexComp k1.userKey k2.userKey with
  | eq =>
    have huk : k1.userKey = k2.userKey := (lexComp_eq_iff _ _).mp heq
    rw [Key.comp_of_lex_eq heq]
    constructor
    · intro hc
      rcases Nat.lt_trichotomy k2.version k1.version with h | h | h
      · rw [if_pos h] at hc; exact absurd hc (by simp)
      · cases k1; cases k2
        simp only at huk h
        simp [huk, h]
      · rw [if_neg (by omega), if_pos h] at hc; exact absurd hc (by simp)
    · intro hc
      cases hc
      simp
  | lt =>
    rw [Key.comp_of_lex_lt heq]
    constructor
    · intro hc; exact absurd hc (by simp)
    · intro hc
      cases hc
      rw [lexComp_self] at heq
      exact absurd heq (by simp)
  | gt =>
    rw [Key.comp_of_lex_gt heq]
    constructor
    · intro hc; exact absurd hc (by simp)
    · intro hc
      cases hc
      rw [lexComp_self] at heq
      exact absurd heq (by simp)

theorem Key.comp_self (k : Key) : k.comp k = .eq := (Key.comp_eq_iff k k).mpr rfl

theorem Key.comp_swap (k1 k2 : Key) : k2.comp k1 = (k1.comp k2).swap := by
  cases heq : lexComp k1.userKey k2.userKey with
  | eq =>
    have huk : k1.userKey = k2.userKey := (lexComp_eq_iff _ _).mp heq
    have heq2 : lexComp k2.userKey k1.userKey = .eq := by rw [huk, lexComp_self]
    rw [Key.comp_of_lex_eq heq, Key.comp_of_lex_eq heq2]
    split_ifs <;> first | rfl | omega
  | lt =>
    have heq2 : lexComp k2.userKey k1.userKey = .gt := by rw [lexComp_swap, heq]; rfl
    rw [Key.comp_of_lex_lt heq, Key.comp_of_lex_gt heq2]; rfl
  | gt =>
    have heq2 : lexComp k2.userKey k1.userKey = .lt := by rw [lexComp_swap, heq]; rfl
    rw [Key.comp_of_lex_gt heq, Key.comp_of_lex_lt heq2]; rfl

theorem Key.comp_gt_iff (k1 k2 : Key) : k1.comp k2 = .gt ↔ k2.comp k1 = .lt := by
  rw [Key.comp_swap k1 k2]
  cases k1.comp k2 <;> simp [Ordering.swap]

theorem Key.comp_lt_trans {a b c : Key} (h1 : a.comp b = .lt) (h2 : b.comp c = .lt) :
    a.comp c = .lt := by
  cases hab : lexComp a.userKey b.userKey with
  | eq =>
    have huk : a.userKey = b.userKey := (lexComp_eq_iff _ _).mp hab
    rw [Key.comp_of_lex_eq hab] at h1
    have hv : b.version < a.version := by
      by_contra hv
      rw [if_neg hv] at h1
      split at h1 <;> simp at h1
    cases hbc : lexComp b.userKey c.userKey with
    | eq =>
      have huk2 : b.userKey = c.userKey := (lexComp_eq_iff _ _).mp hbc
      rw [Key.comp_of_lex_eq hbc] at h2
      have hv2 : c.version < b.version := by
        by_contra hv2
        rw [if_neg hv2] at h2
        split at h2 <;> simp at h2
      have hac : lexComp a.userKey c.userKey = .eq := by
        rw [huk, huk2, lexComp_self]
      rw [Key.comp_of_lex_eq hac, if_pos (by omega)]
    | lt =>
      have hac : lexComp a.userKey c.userKey = .lt := by
        rw [huk]; exact hbc
      exact Key.comp_of_lex_lt hac
    | gt =>
      rw [Key.comp_of_lex_gt hbc] at h2; exact absurd h2 (by simp)
  | lt =>
    cases hbc : lexComp b.userKey c.userKey with
    | eq =>
      have huk2 : b.userKey = c.userKey := (lexComp_eq_iff _ _).mp hbc
      have hac : lexComp a.userKey c.userKey = .lt := by rw [← huk2]; exact hab
      exact Key.comp_of_lex_lt hac
    | lt => exact Key.comp_of_lex_lt (lexComp_lt_trans _ _ _ hab hbc)
    | gt =>
      rw [Key.comp_of_lex_gt hbc] at h2; exact absurd h2 (by simp)
  | gt =>
    rw [Key.comp_of_lex_gt hab] at h1; exact absurd h1 (by simp)

theorem Key.comp_gt_trans {a b c : Key} (h1 : a.comp b = .gt) (h2 : b.comp c = .gt) :
    a.comp c = .gt := by
  rw [Key.comp_gt_iff] at h1 h2 ⊢
  exact Key.comp_lt_trans h2 h1

theorem Key.comp_le_lt_trans {k a y : Key} (h1 : k.comp a ≠ .gt) (h2 : a.comp y = .lt) :
    k.comp y = .lt := by
  cases hka : k.comp a with
  | lt => exact Key.comp_lt_trans hka h2
  | eq => cases (Key.comp_eq_iff k a).mp hka; exact h2
  | gt => exact absurd hka h1

theorem Key.comp_gt_of_gt_of_lt {key : Key} {x o : Key}
    (h1 : key.comp x = .gt) (h2 : o.comp x = .lt) : key.comp o = .gt := by
  rw [Key.comp_gt_iff] at h1 ⊢
  exact Key.comp_lt_trans h2 h1

theorem Key.comp_lt_asymm {a b : Key} (h1 : a.comp b = .lt) (h2 : b.comp a = .lt) : False := by
  have := Key.comp_lt_trans h1 h2
  rw [Key.comp_self] at this
  exact absurd this (by simp)

/-! #### List helpers -/

theorem getD_set_self (l : List Nat) (i a d : Nat) (h : i < l.length) :
    (l.set i a).getD i d = a := by
  rw [List.getD_eq_getElem?_getD, List.getElem?_set_self (by simpa using h)]
  rfl

theorem getD_set_ne (l : List Nat) {i j : Nat} (a d : Nat) (h : i ≠ j) :
    (l.set i a).getD j d = l.getD j d := by
  rw [List.getD_eq_getElem?_getD, List.getD_eq_getElem?_getD, List.getElem?_set_ne h]

theorem find?_append_of_neg {p : Nat → Bool} {l1 l2 : List Nat}
    (h : ∀ x ∈ l1, p x = false) : (l1 ++ l2).find? p = l2.find? p := by
  rw [List.find?_append]
  have hn : l1.find? p = none := List.find?_eq_none.mpr (by intro x hx; simp [h x hx])
  rw [hn, Option.none_or]

theorem filter_append_of_pos_neg {p : Nat → Bool} {l1 l2 : List Nat}
    (h1 : ∀ x ∈ l1, p x = true) (h2 : ∀ x ∈ l2, p x = false) :
    (l1 ++ l2).filter p = l1 := by
  rw [List.filter_append, List.filter_eq_self.mpr h1,
    List.filter_eq_nil_iff.mpr (by intro a ha; simp [h2 a ha]), List.append_nil]

/-! #### Chain lemmas -/

theorem offLt_irrefl {s : skiplist} {a : Nat} (h : offLt s a a) : False := by
  unfold offLt at h
  rw [Key.comp_self] at h
  exact absurd h (by simp)

theorem offLt_asymm {s : skiplist} {a b : Nat} (h1 : offLt s a b) (h2 : offLt s b a) :
    False :=
  Key.comp_lt_asymm h1 h2

theorem nodup_of_pairwise_offLt {s : skiplist} {l : List Nat}
    (h : l.Pairwise (offLt s)) : l.Nodup := by
  refine List.Pairwise.imp ?_ h
  intro a b hab heq
  subst heq
  exact offLt_irrefl hab

theorem length_le_of_nodup_bounded {l : List Nat} {N : Nat} (hnd : l.Nodup)
    (hmem : ∀ o ∈ l, 2 ≤ o ∧ o ≤ N) : l.length ≤ N - 1 := by
  have h1 : l.toFinset ⊆ Finset.Icc 2 N := by
    intro o ho
    rw [List.mem_toFinset] at ho
    exact Finset.mem_Icc.mpr (hmem o ho)
  have h2 := Finset.card_le_card h1
  rw [List.toFinset_card_of_nodup hnd, Nat.card_Icc] at h2
  omega

theorem chainAux_length_le (s : skiplist) (level : Nat) :
    ∀ fuel off, (chainAux s level fuel off).length ≤ fuel
  | 0, _ => by simp [chainAux]
  | fuel + 1, 0 => by simp [chainAux]
  | fuel + 1, o + 1 => by
    simp only [chainAux, List.length_cons]
    exact Nat.succ_le_succ (chainAux_length_le s level fuel _)

theorem chainAux_of_isChainFrom (s : skiplist) (level : Nat) :
    ∀ (l : List Nat) (off fuel : Nat), IsChainFrom s level off l → l.length < fuel →
      chainAux s level fuel off = l := by
  intro l
  induction l with
  | nil =>
    intro off fuel hic hlen
    have hoff : off = 0 := hic
    subst hoff
    cases fuel with
    | zero => omega
    | succ f => rfl
  | cons o rest ih =>
    intro off fuel hic hlen
    obtain ⟨h1, h2, h3⟩ := hic
    subst h1
    cases fuel with
    | zero => simp at hlen
    | succ f =>
      cases off with
      | zero => exact absurd rfl h2
      | succ m =>
        show (m + 1) :: chainAux s level f (nextOffS s (m + 1) level) = (m + 1) :: rest
        rw [ih _ f h3 (by simpa using hlen)]

theorem isChainFrom_suffix (s : skiplist) (level : Nat) :
    ∀ (l1 : List Nat) (start x : Nat) (l2 : List Nat),
      IsChainFrom s level start (l1 ++ x :: l2) →
      x ≠ 0 ∧ IsChainFrom s level (nextOffS s x level) l2 := by
  intro l1
  induction l1 with
  | nil =>
    intro start x l2 hic
    obtain ⟨h1, h2, h3⟩ := hic
    exact ⟨h2, h3⟩
  | cons o rest ih =>
    intro start x l2 hic
    obtain ⟨h1, h2, h3⟩ := hic
    exact ih _ x l2 h3

theorem isChainFrom_head (s : skiplist) (level : Nat) (start : Nat) (l : List Nat)
    (hic : IsChainFrom s level start l) : start = l.head?.getD 0 := by
  cases l with
  | nil => exact hic
  | cons o rest => exact hic.1

/-! #### Well-formedness accessors -/

theorem WF.nonnil {s : skiplist} (h : WF s) : s.nodes ≠ [] := h.1

theorem WF.height_pos {s : skiplist} (h : WF s) : 1 ≤ s.height := h.2.1

theorem WF.height_le {s : skiplist} (h : WF s) : s.height ≤ maxHeight := h.2.2.1

theorem WF.chainOK {s : skiplist} (h : WF s) :
    ∀ level < maxHeight, ChainOK s level := h.2.2.2.1

theorem WF.above {s : skiplist} (h : WF s) :
    ∀ level < maxHeight, s.height ≤ level → chainL s level = [] := h.2.2.2.2.1

theorem WF.sub {s : skiplist} (h : WF s) :
    ∀ level < maxHeight, 0 < level →
      (chainL s level).Sublist (chainL s (level - 1)) := h.2.2.2.2.2.1

theorem WF.complete {s : skiplist} (h : WF s) :
    ∀ o < s.nodes.length + 1, 2 ≤ o → o ∈ chainL s 0 := h.2.2.2.2.2.2.1

theorem WF.tower_len {s : skiplist} (h : WF s) :
    ∀ o < s.nodes.length + 1, 1 ≤ o →
      (nodeAt s o).tower.length = maxHeight := h.2.2.2.2.2.2.2

theorem chainL_length_le {s : skiplist} (hWF : WF s) {level : Nat}
    (hlvl : level < maxHeight) : (chainL s level).length ≤ s.nodes.length - 1 := by
  obtain ⟨_, hval, hpw⟩ := WF.chainOK hWF level hlvl
  exact length_le_of_nodup_bounded (nodup_of_pairwise_offLt hpw) hval

theorem chainL_sublist_zero {s : skiplist} (hWF : WF s) :
    ∀ level, level < maxHeight → (chainL s level).Sublist (chainL s 0) := by
  intro level
  induction level with
  | zero => intro _; exact List.Sublist.refl _
  | succ n ih =>
    intro hlt
    have h1 := WF.sub hWF (n + 1) hlt (Nat.succ_pos n)
    simp only [Nat.add_sub_cancel] at h1
    exact h1.trans (ih (by omega))

theorem mem_chain_decomp {s : skiplist} (hWF : WF s) {level x : Nat}
    (hlvl : level < maxHeight) (hx : x ∈ chainL s level) :
    ∃ l1 l2, chainL s level = l1 ++ x :: l2 ∧
      (∀ o ∈ l1, offLt s o x) ∧ (∀ o ∈ l2, offLt s x o) ∧
      IsChainFrom s level (nextOffS s x level) l2 := by
  obtain ⟨l1, l2, hsplit⟩ := List.append_of_mem hx
  obtain ⟨hic, _, hpw⟩ := WF.chainOK hWF level hlvl
  rw [hsplit] at hpw hic
  rw [List.pairwise_append] at hpw
  obtain ⟨hp1, hp2, hp12⟩ := hpw
  rw [List.pairwise_cons] at hp2
  refine ⟨l1, l2, hsplit, ?_, hp2.1, (isChainFrom_suffix s level l1 _ x l2 hic).2⟩
  intro o ho
  exact hp12 o ho x (List.mem_cons_self x l2)

theorem mem_right_of_lt {s : skiplist} {l l1 l2 : List Nat} {x y : Nat}
    (hpw : l.Pairwise (offLt s)) (hsplit : l = l1 ++ x :: l2)
    (hy : y ∈ l) (hlt : offLt s x y) : y ∈ l2 := by
  subst hsplit
  rcases List.mem_append.mp hy with h | h
  · exfalso
    rw [List.pairwise_append] at hpw
    exact offLt_asymm hlt (hpw.2.2 y h x (List.mem_cons_self _ _))
  · rcases List.mem_cons.mp h with h | h
    · subst h; exact absurd hlt offLt_irrefl
    · exact h

/-! #### `findSpliceForLevel` specification -/

theorem findSpliceAux_spec (s : skiplist) (key : Key) (level : Nat) :
    ∀ (suf : List Nat) (start fuel : Nat),
      IsChainFrom s level (nextOffS s start level) suf →
      suf.Pairwise (offLt s) →
      suf.length < fuel →
      ∃ b a m P S,
        findSpliceAux s key level fuel start = some (b, a, m) ∧
        suf = P ++ S ∧
        (∀ o ∈ P, key.comp (keyOf s o) = .gt) ∧
        (∀ o ∈ S, key.comp (keyOf s o) ≠ .gt) ∧
        b = P.getLastD start ∧
        a = S.head?.getD 0 ∧
        IsChainFrom s level (nextOffS s b level) S ∧
        (m = true ↔ a ≠ 0 ∧ key.comp (keyOf s a) = .eq) := by
  intro suf
  induction suf with
  | nil =>
    intro start fuel hic hpw hlen
    cases fuel with
    | zero => omega
    | succ f =>
      have hz : nextOffS s start level = 0 := hic
      refine ⟨start, 0, false, [], [], ?_, rfl, by simp, by simp, rfl, rfl, hz, by simp⟩
      unfold findSpliceAux
      rw [if_pos hz]
  | cons o rest ih =>
    intro start fuel hic hpw hlen
    obtain ⟨h1, h2, h3⟩ := hic
    cases fuel with
    | zero => simp at hlen
    | succ f =>
      rw [List.pairwise_cons] at hpw
      unfold findSpliceAux
      rw [if_neg (by rw [h1]; exact h2)]
      rw [h1]
      cases hcmp : key.comp (keyOf s o) with
      | gt =>
        obtain ⟨b, a, m, P, S, hrun, hsplit, hP, hS, hb, ha, hbic, hm⟩ :=
          ih o f h3 hpw.2 (by simpa using hlen)
        refine ⟨b, a, m, o :: P, S, hrun, by simp [hsplit], ?_, hS, ?_, ha, hbic, hm⟩
        · intro x hx
          rcases List.mem_cons.mp hx with h | h
          · subst h; exact hcmp
          · exact hP x h
        · rw [List.getLastD_cons, hb]
      | eq =>
        refine ⟨start, o, true, [], o :: rest, rfl, rfl, by simp, ?_, rfl, rfl,
          ⟨h1, h2, h3⟩, by simp [h2, hcmp]⟩
        intro x hx
        rcases List.mem_cons.mp hx with h | h
        · subst h; simp [hcmp]
        · have := hpw.1 x h
          rw [Key.comp_le_lt_trans (by simp [hcmp]) this]
          simp
      | lt =>
        refine ⟨start, o, false, [], o :: rest, rfl, rfl, by simp, ?_, rfl, rfl,
          ⟨h1, h2, h3⟩, by simp [hcmp]⟩
        intro x hx
        rcases List.mem_cons.mp hx with h | h
        · subst h; simp [hcmp]
        · have := hpw.1 x h
          rw [Key.comp_le_lt_trans (by simp [hcmp]) this]
          simp

/-! #### `findNear` target characterizations, one per return shape -/

@[simp]
theorem ordering_beq_iff (a b : Ordering) : (a == b) = true ↔ a = b := by
  cases a <;> cases b <;> decide

@[simp]
theorem ordering_beq_false_iff (a b : Ordering) : (a == b) = false ↔ a ≠ b := by
  cases a <;> cases b <;> decide

@[simp]
theorem ordering_bne_iff (a b : Ordering) : (a != b) = true ↔ a ≠ b := by
  cases a <;> cases b <;> decide

@[simp]
theorem ordering_bne_false_iff (a b : Ordering) : (a != b) = false ↔ a = b := by
  cases a <;> cases b <;> decide

theorem prefix_all_gt {s : skiplist} {key : Key} {l P S : List Nat} {x : Nat}
    (hpw : l.Pairwise (offLt s)) (hsplit : l = P ++ x :: S)
    (hx : key.comp (keyOf s x) ≠ .lt) :
    ∀ o ∈ P, key.comp (keyOf s o) = .gt := by
  intro o ho
  subst hsplit
  rw [List.pairwise_append] at hpw
  have holt : offLt s o x := hpw.2.2 o ho x (List.mem_cons_self _ _)
  cases hc : key.comp (keyOf s x) with
  | lt => exact absurd hc hx
  | eq =>
    cases (Key.comp_eq_iff _ _).mp hc
    exact (Key.comp_gt_iff _ _).mpr holt
  | gt => exact Key.comp_gt_of_gt_of_lt hc holt

theorem suffix_all_lt {s : skiplist} {key : Key} {l P S : List Nat} {x : Nat}
    (hpw : l.Pairwise (offLt s)) (hsplit : l = P ++ x :: S)
    (hx : key.comp (keyOf s x) ≠ .gt) :
    ∀ o ∈ S, key.comp (keyOf s o) = .lt := by
  intro o ho
  subst hsplit
  rw [List.pairwise_append] at hpw
  have h2 := (List.pairwise_cons.mp hpw.2.1).1 o ho
  exact Key.comp_le_lt_trans hx h2

theorem find?_all_pos {p : Nat → Bool} {S : List Nat}
    (h : ∀ o ∈ S, p o = true) : S.find? p = S.head? := by
  cases S with
  | nil => rfl
  | cons a rest => rw [List.find?_cons_of_pos rest (h a (List.mem_cons_self _ _))]; rfl

theorem target_end_none {s : skiplist} {key : Key}
    (hall : ∀ o ∈ chainL s 0, key.comp (keyOf s o) = .gt) (ae : Bool) :
    targetNode s key false ae = none := by
  unfold targetNode
  cases ae <;> simp only <;> rw [List.find?_eq_none] <;> intro x hx <;> simp [hall x hx]

theorem target_end_last {s : skiplist} {key : Key}
    (hall : ∀ o ∈ chainL s 0, key.comp (keyOf s o) = .gt) (ae : Bool) :
    targetNode s key true ae = (chainL s 0).getLast? := by
  unfold targetNode
  cases ae <;> simp only <;> rw [List.filter_eq_self.mpr (by intro o ho; simp [hall o ho])]

theorem target_found_lt {s : skiplist} {key : Key} {P S : List Nat} {nxt : Nat}
    (hL0 : chainL s 0 = P ++ nxt :: S)
    (hP : ∀ o ∈ P, key.comp (keyOf s o) = .gt)
    (hn : key.comp (keyOf s nxt) = .lt) :
    targetNode s key false false = some nxt ∧ targetNode s key false true = some nxt := by
  unfold targetNode
  constructor
  · simp only
    rw [hL0, find?_append_of_neg (by intro o ho; simp [hP o ho])]
    exact List.find?_cons_of_pos S (by simp [hn])
  · simp only
    rw [hL0, find?_append_of_neg (by intro o ho; simp [hP o ho])]
    exact List.find?_cons_of_pos S (by simp [hn])

theorem target_found_eq {s : skiplist} {key : Key} {P S : List Nat} {nxt : Nat}
    (hpw : (chainL s 0).Pairwise (offLt s))
    (hL0 : chainL s 0 = P ++ nxt :: S)
    (hP : ∀ o ∈ P, key.comp (keyOf s o) = .gt)
    (hn : key.comp (keyOf s nxt) = .eq) :
    targetNode s key false true = some nxt ∧ targetNode s key true true = some nxt ∧
    targetNode s key false false = S.head? := by
  have hS : ∀ o ∈ S, key.comp (keyOf s o) = .lt :=
    suffix_all_lt hpw hL0 (by simp [hn])
  refine ⟨?_, ?_, ?_⟩
  · unfold targetNode
    simp only
    rw [hL0, find?_append_of_neg (by intro o ho; simp [hP o ho])]
    exact List.find?_cons_of_pos S (by simp [hn])
  · unfold targetNode
    simp only
    rw [hL0, show P ++ nxt :: S = (P ++ nxt :: []) ++ S by simp,
      filter_append_of_pos_neg ?_ ?_]
    · simp
    · intro o ho
      rcases List.mem_append.mp ho with h | h
      · simp [hP o h]
      · rcases List.mem_cons.mp h with h | h
        · subst h; simp [hn]
        · simp at h
    · intro o ho; simp [hS o ho]
  · unfold targetNode
    simp only
    rw [hL0, find?_append_of_neg (by intro o ho; simp [hP o ho]),
      List.find?_cons_of_neg S (by simp [hn])]
    exact find?_all_pos (by intro o ho; simp [hS o ho])

theorem target_before_gtrest {s : skiplist} {key : Key} {P rest : List Nat}
    (hL0 : chainL s 0 = P ++ rest)
    (hP : ∀ o ∈ P, key.comp (keyOf s o) = .gt)
    (hrest : ∀ o ∈ rest, key.comp (keyOf s o) ≠ .gt) :
    targetNode s key true false = P.getLast? := by
  unfold targetNode
  simp only
  rw [hL0, filter_append_of_pos_neg (by intro o ho; simp [hP o ho])
    (by intro o ho; simp [hrest o ho])]

theorem target_before_le {s : skiplist} {key : Key} {P rest : List Nat}
    (hL0 : chainL s 0 = P ++ rest)
    (hP : ∀ o ∈ P, key.comp (keyOf s o) = .gt)
    (hrest : ∀ o ∈ rest, key.comp (keyOf s o) = .lt) :
    targetNode s key true true = P.getLast? := by
  unfold targetNode
  simp only
  rw [hL0, filter_append_of_pos_neg (by intro o ho; simp [hP o ho])
    (by intro o ho; simp [hrest o ho])]

theorem ne_headOff_of_two_le {x : Nat} (h : 2 ≤ x) : x ≠ headOff := by
  unfold headOff; omega

/-- The loop invariant of `findNear`: the cursor is the head or a chain
member strictly below the key, with its base-chain suffix recorded. -/
def NearInv (s : skiplist) (key : Key) (x level : Nat) (suf : List Nat) : Prop :=
  (x = headOff ∧ suf = chainL s 0) ∨
    (x ∈ chainL s level ∧ key.comp (keyOf s x) = .gt ∧
      ∃ l1, chainL s 0 = l1 ++ x :: suf)

/-- Stepping facts when the next offset at the current level is non-null:
it lies in the recorded suffix and in the current level's chain, and splits
the base chain with an all-greater prefix whenever the key is not below it. -/
theorem step_position {s : skiplist} (hWF : WF s) {key : Key} {x level : Nat}
    {suf : List Nat} (hlvl : level < s.height)
    (hinv : NearInv s key x level suf) (hnz : nextOffS s x level ≠ 0) :
    ∃ m1 m2, suf = m1 ++ nextOffS s x level :: m2 ∧
      nextOffS s x level ∈ chainL s level ∧
      ∃ Q, chainL s 0 = Q ++ nextOffS s x level :: m2 ∧
        (key.comp (keyOf s (nextOffS s x level)) ≠ .lt →
          ∀ o ∈ Q, key.comp (keyOf s o) = .gt) := by
  have hmaxlvl : level < maxHeight := lt_of_lt_of_le hlvl (WF.height_le hWF)
  obtain ⟨hic0, hval0, hpw0⟩ := WF.chainOK hWF 0 (by decide)
  obtain ⟨hicL, hvalL, hpwL⟩ := WF.chainOK hWF level hmaxlvl
  rcases hinv with ⟨hx, hsuf⟩ | ⟨hxmem, hxgt, l1, hsplit0⟩
  · subst hx
    obtain ⟨o, T, hcl⟩ : ∃ o T, chainL s level = o :: T := by
      cases hcl : chainL s level with
      | nil => rw [hcl] at hicL; exact absurd hicL hnz
      | cons o T => exact ⟨o, T, rfl⟩
    have hicL' := hicL
    rw [hcl] at hicL'
    obtain ⟨h1, h2, h3⟩ := hicL'
    have hnmem : nextOffS s headOff level ∈ chainL s level := by
      rw [hcl, h1]; exact List.mem_cons_self _ _
    have hnmem0 : nextOffS s headOff level ∈ chainL s 0 :=
      (chainL_sublist_zero hWF level hmaxlvl).subset hnmem
    obtain ⟨m1, m2, hm⟩ := List.append_of_mem hnmem0
    exact ⟨m1, m2, by rw [hsuf, hm], hnmem, m1, hm,
      fun hnlt => prefix_all_gt hpw0 hm hnlt⟩
  · obtain ⟨l1', l2', hsplitL, hbefore, hafterL, hicx⟩ :=
      mem_chain_decomp hWF hmaxlvl hxmem
    obtain ⟨o, T, hl2⟩ : ∃ o T, l2' = o :: T := by
      cases hl2 : l2' with
      | nil => rw [hl2] at hicx; exact absurd hicx hnz
      | cons o T => exact ⟨o, T, rfl⟩
    rw [hl2] at hicx hafterL
    obtain ⟨h1, h2, h3⟩ := hicx
    have hnmem : nextOffS s x level ∈ chainL s level := by
      rw [hsplitL, hl2, h1]
      exact List.mem_append_right _ (List.mem_cons_of_mem _ (List.mem_cons_self _ _))
    have hnmem0 : nextOffS s x level ∈ chainL s 0 :=
      (chainL_sublist_zero hWF level hmaxlvl).subset hnmem
    have hxlt : offLt s x (nextOffS s x level) := by
      rw [h1]
      exact hafterL _ (List.mem_cons_self _ _)
    have hnsuf : nextOffS s x level ∈ suf :=
      mem_right_of_lt hpw0 hsplit0 hnmem0 hxlt
    obtain ⟨m1, m2, hm⟩ := List.append_of_mem hnsuf
    have hsplitQ : chainL s 0 = (l1 ++ x :: m1) ++ nextOffS s x level :: m2 := by
      rw [hsplit0, hm]; simp
    exact ⟨m1, m2, hm, hnmem, l1 ++ x :: m1, hsplitQ,
      fun hnlt => prefix_all_gt hpw0 hsplitQ hnlt⟩

/-- Stepping facts at the base level: the next offset starts the recorded
suffix, and the base chain splits right there with an all-greater prefix
ending at the cursor. -/
theorem step_level0 {s : skiplist} (hWF : WF s) {key : Key} {x : Nat}
    {suf : List Nat} (hinv : NearInv s key x 0 suf) (hnz : nextOffS s x 0 ≠ 0) :
    ∃ P S, suf = nextOffS s x 0 :: S ∧
      chainL s 0 = P ++ nextOffS s x 0 :: S ∧
      (∀ o ∈ P, key.comp (keyOf s o) = .gt) ∧
      P.getLast? = (if x = headOff then none else some x) ∧
      IsChainFrom s 0 (nextOffS s (nextOffS s x 0) 0) S := by
  obtain ⟨hic0, hval0, hpw0⟩ := WF.chainOK hWF 0 (by decide)
  rcases hinv with ⟨hx, hsuf⟩ | ⟨hxmem, hxgt, l1, hsplit0⟩
  · subst hx
    obtain ⟨o, T, hcl⟩ : ∃ o T, chainL s 0 = o :: T := by
      cases hcl : chainL s 0 with
      | nil => rw [hcl] at hic0; exact absurd hic0 hnz
      | cons o T => exact ⟨o, T, rfl⟩
    have hic0' := hic0
    rw [hcl] at hic0'
    obtain ⟨h1, h2, h3⟩ := hic0'
    refine ⟨[], T, ?_, ?_, by simp, by simp, ?_⟩
    · rw [hsuf, hcl, h1]
    · rw [hcl, h1]; rfl
    · rw [← h1] at h3; exact h3
  · have hicsuf : IsChainFrom s 0 (nextOffS s x 0) suf :=
      (isChainFrom_suffix s 0 l1 _ x suf (hsplit0 ▸ hic0)).2
    obtain ⟨o, T, hs⟩ : ∃ o T, suf = o :: T := by
      cases hs : suf with
      | nil => rw [hs] at hicsuf; exact absurd hicsuf hnz
      | cons o T => exact ⟨o, T, rfl⟩
    have hicsuf' := hicsuf
    rw [hs] at hicsuf'
    obtain ⟨h1, h2, h3⟩ := hicsuf'
    have hxne : x ≠ headOff :=
      ne_headOff_of_two_le (hval0 x hxmem).1
    refine ⟨l1 ++ x :: [], T, by rw [hs, h1], ?_, ?_, by simp [hxne],
      by rw [← h1] at h3; exact h3⟩
    · rw [hsplit0, hs, h1]; simp
    · intro o' ho
      rcases List.mem_append.mp ho with h | h
      · exact prefix_all_gt hpw0 hsplit0 (by simp [hxgt]) o' h
      · rcases List.mem_cons.mp h with h | h
        · subst h; exact hxgt
        · simp at h

theorem targetBool_none (s : skiplist) (key : Key) : targetBool s key none = false := rfl

theorem targetBool_some (s : skiplist) (key : Key) (o : Nat) :
    targetBool s key (some o) = (key.comp (keyOf s o) == .eq) := rfl

theorem NearInv.descend {s : skiplist} (hWF : WF s) {key : Key} {x level : Nat}
    {suf : List Nat} (hmaxlvl : level < maxHeight) (hl : 0 < level)
    (hinv : NearInv s key x level suf) : NearInv s key x (level - 1) suf := by
  rcases hinv with ⟨hx, hsuf⟩ | ⟨hxmem, hxgt, l1, hsp⟩
  · exact Or.inl ⟨hx, hsuf⟩
  · exact Or.inr ⟨(WF.sub hWF level hmaxlvl hl).subset hxmem, hxgt, l1, hsp⟩

/-- The `findNear` loop computes the spec's four classical queries, with the
equal-key flag, on every well-formed skiplist. -/
theorem findNearAux_master {s : skiplist} (hWF : WF s) (key : Key)
    (less allowEqual : Bool) :
    ∀ (fuel x level : Nat) (after : Option Nat) (suf : List Nat),
      level < s.height →
      NearInv s key x level suf →
      (∀ a, after = some a → key.comp (keyOf s a) = .lt) →
      level + suf.length < fuel →
      findNearAux s key less allowEqual fuel x level after =
        some (targetNode s key less allowEqual,
          targetBool s key (targetNode s key less allowEqual)) := by
  intro fuel
  induction fuel with
  | zero => intro x level after suf _ _ _ hm; omega
  | succ fuel ih =>
    intro x level after suf hlvl hinv hafter hmeas
    have hmaxlvl : level < maxHeight := lt_of_lt_of_le hlvl (WF.height_le hWF)
    obtain ⟨hic0, hval0, hpw0⟩ := WF.chainOK hWF 0 (by decide)
    simp only [findNearAux]
    by_cases hz : nextOffS s x level = 0
    · rw [if_pos hz]
      by_cases hl : 0 < level
      · rw [if_pos hl]
        exact ih x (level - 1) after suf (by omega)
          (NearInv.descend hWF hmaxlvl hl hinv) hafter (by omega)
      · have hl0 : level = 0 := by omega
        subst hl0
        rcases hinv with ⟨hx, hsuf⟩ | ⟨hxmem, hxgt, l1, hsp⟩
        · subst hx
          have hchain : chainL s 0 = [] := by
            cases hcl : chainL s 0 with
            | nil => rfl
            | cons o T =>
              have h := hic0
              rw [hcl, hz] at h
              exact absurd h.1.symm h.2.1
          have hall : ∀ o ∈ chainL s 0, key.comp (keyOf s o) = .gt := by
            rw [hchain]; intro o ho; exact absurd ho (List.not_mem_nil o)
          cases less
          · rw [target_end_none hall allowEqual]; rfl
          · rw [target_end_last hall allowEqual, hchain]; rfl
        · have hsuf_nil : suf = [] := by
            have hicsuf : IsChainFrom s 0 (nextOffS s x 0) suf :=
              (isChainFrom_suffix s 0 l1 _ x suf (hsp ▸ hic0)).2
            cases hsuf : suf with
            | nil => rfl
            | cons o T =>
              rw [hsuf, hz] at hicsuf
              exact absurd hicsuf.1.symm hicsuf.2.1
          subst hsuf_nil
          have hall : ∀ o ∈ chainL s 0, key.comp (keyOf s o) = .gt := by
            intro o ho
            rw [hsp] at ho
            rcases List.mem_append.mp ho with h | h
            · exact prefix_all_gt hpw0 hsp (by simp [hxgt]) o h
            · rcases List.mem_cons.mp h with h | h
              · subst h; exact hxgt
              · simp at h
          have hxne : x ≠ headOff := ne_headOff_of_two_le (hval0 x hxmem).1
          cases less
          · rw [target_end_none hall allowEqual]; rfl
          · simp only [if_neg hxne]
            rw [target_end_last hall allowEqual, hsp,
              show (l1 ++ x :: []).getLast? = some x by simp,
              targetBool_some, hxgt]
            rfl
    · rw [if_neg hz]
      have hcm : (if after = some (nextOffS s x level) then Ordering.lt
          else key.comp (keyOf s (nextOffS s x level))) =
          key.comp (keyOf s (nextOffS s x level)) := by
        split
        · rename_i hsh
          exact (hafter _ hsh).symm
        · rfl
      rw [hcm]
      obtain ⟨m1, m2, hm, hnmemL, Q, hQ, hQgt⟩ := step_position hWF hlvl hinv hz
      have hlen : m2.length + 1 ≤ suf.length := by
        rw [hm, List.length_append, List.length_cons]
        omega
      cases hc : key.comp (keyOf s (nextOffS s x level)) with
      | gt =>
        show findNearAux s key less allowEqual fuel (nextOffS s x level) level after = _
        exact ih (nextOffS s x level) level after m2 hlvl
          (Or.inr ⟨hnmemL, hc, Q, hQ⟩) hafter (by omega)
      | eq =>
        dsimp only
        have hkeq : key = keyOf s (nextOffS s x level) := (Key.comp_eq_iff _ _).mp hc
        have hQgt' : ∀ o ∈ Q, key.comp (keyOf s o) = .gt := hQgt (by simp [hc])
        obtain ⟨t1, t2, t3⟩ := target_found_eq hpw0 hQ hQgt' hc
        cases allowEqual with
        | true =>
          cases less
          · rw [t1, targetBool_some, hc]; rfl
          · rw [t2, targetBool_some, hc]; rfl
        | false =>
          cases less with
          | false =>
            have hicm2 : IsChainFrom s 0 (nextOffS s (nextOffS s x level) 0) m2 :=
              (isChainFrom_suffix s 0 Q _ _ m2 (hQ ▸ hic0)).2
            rw [t3]
            cases hm2 : m2 with
            | nil =>
              rw [hm2] at hicm2
              have hz2 : nextOffS s (nextOffS s x level) 0 = 0 := hicm2
              rw [if_pos hz2]
              rfl
            | cons b T =>
              rw [hm2] at hicm2
              obtain ⟨hb1, hb2, _⟩ := hicm2
              have hblt : key.comp (keyOf s b) = .lt := by
                have hpwQ := hpw0
                rw [hQ] at hpwQ
                rw [List.pairwise_append] at hpwQ
                have := (List.pairwise_cons.mp hpwQ.2.1).1 b (by rw [hm2]; exact List.mem_cons_self _ _)
                rw [hkeq]
                exact this
              rw [hb1, if_neg hb2,
                show ((b :: T).head? : Option Nat) = some b from rfl,
                targetBool_some, hblt]
              rfl
          | true =>
            by_cases hl : 0 < level
            · rw [if_pos hl]
              exact ih x (level - 1) after suf (by omega)
                (NearInv.descend hWF hmaxlvl hl hinv) hafter (by omega)
            · have hl0 : level = 0 := by omega
              subst hl0
              obtain ⟨P, S, hsufeq, hPS, hPgt, hPlast, hicS⟩ := step_level0 hWF hinv hz
              have hrest : ∀ o ∈ nextOffS s x 0 :: S, key.comp (keyOf s o) ≠ .gt := by
                intro o ho
                rcases List.mem_cons.mp ho with h | h
                · subst h; simp [hc]
                · rw [suffix_all_lt hpw0 hPS (by simp [hc]) o h]; simp
              rw [target_before_gtrest hPS hPgt hrest, hPlast]
              rcases hinv with ⟨hx, _⟩ | ⟨hxmem, hxgt, _, _⟩
              · subst hx; rfl
              · have hxne : x ≠ headOff := ne_headOff_of_two_le (hval0 x hxmem).1
                simp only [if_neg hxne]
                rw [targetBool_some, hxgt]
                rfl
      | lt =>
        dsimp only
        by_cases hl : 0 < level
        · rw [if_pos hl]
          refine ih x (level - 1) (some (nextOffS s x level)) suf (by omega)
            (NearInv.descend hWF hmaxlvl hl hinv) ?_ (by omega)
          intro a ha
          injection ha with ha
          subst ha
          exact hc
        · have hl0 : level = 0 := by omega
          subst hl0
          obtain ⟨P, S, hsufeq, hPS, hPgt, hPlast, hicS⟩ := step_level0 hWF hinv hz
          have hSlt : ∀ o ∈ S, key.comp (keyOf s o) = .lt :=
            suffix_all_lt hpw0 hPS (by simp [hc])
          cases less with
          | false =>
            obtain ⟨t1, t2⟩ := target_found_lt hPS hPgt hc
            cases allowEqual
            · rw [t1, targetBool_some, hc]; rfl
            · rw [t2, targetBool_some, hc]; rfl
          | true =>
            have hrestle : ∀ o ∈ nextOffS s x 0 :: S, key.comp (keyOf s o) = .lt := by
              intro o ho
              rcases List.mem_cons.mp ho with h | h
              · subst h; exact hc
              · exact hSlt o h
            have hrest : ∀ o ∈ nextOffS s x 0 :: S, key.comp (keyOf s o) ≠ .gt := by
              intro o ho; rw [hrestle o ho]; simp
            cases allowEqual with
            | false =>
              rw [target_before_gtrest hPS hPgt hrest, hPlast]
              rcases hinv with ⟨hx, _⟩ | ⟨hxmem, hxgt, _, _⟩
              · subst hx; rfl
              · have hxne : x ≠ headOff := ne_headOff_of_two_le (hval0 x hxmem).1
                simp only [if_neg hxne]
                rw [targetBool_some, hxgt]
                rfl
            | true =>
              rw [target_before_le hPS hPgt hrestle, hPlast]
              rcases hinv with ⟨hx, _⟩ | ⟨hxmem, hxgt, _, _⟩
              · subst hx; rfl
              · have hxne : x ≠ headOff := ne_headOff_of_two_le (hval0 x hxmem).1
                simp only [if_neg hxne]
                rw [targetBool_some, hxgt]
                rfl

/-- The spec's answer for `find_near` as a full result pair. -/
theorem findNear_spec {s : skiplist} (hWF : WF s) (key : Key) (less allowEqual : Bool) :
    findNear s key less allowEqual =
      some (targetNode s key less allowEqual,
        targetBool s key (targetNode s key less allowEqual)) := by
  unfold findNear
  have hh := WF.height_pos hWF
  have hle := WF.height_le hWF
  have hcl := chainL_length_le hWF (show 0 < maxHeight by decide)
  have hnn := WF.nonnil hWF
  have hlen : 0 < s.nodes.length := List.length_pos.mpr hnn
  exact findNearAux_master hWF key less allowEqual _ headOff (s.height - 1) none
    (chainL s 0) (by omega) (Or.inl ⟨rfl, rfl⟩) (by intro a ha; cases ha)
    (by unfold maxHeight at hle ⊢; omega)

theorem targetNode_mem {s : skiplist} {key : Key} {less ae : Bool} {o : Nat}
    (h : targetNode s key less ae = some o) : o ∈ chainL s 0 := by
  unfold targetNode at h
  cases less <;> cases ae <;> simp only at h
  · exact List.mem_of_find?_eq_some h
  · exact List.mem_of_find?_eq_some h
  · exact (List.mem_filter.mp (List.mem_of_mem_getLast? h)).1
  · exact (List.mem_filter.mp (List.mem_of_mem_getLast? h)).1

/-- `step_forward`: key-free version of `step_position`, for `findLast`. -/
theorem step_forward {s : skiplist} (hWF : WF s) {x level : Nat} {suf : List Nat}
    (hlvl : level < s.height)
    (hinv : (x = headOff ∧ suf = chainL s 0) ∨
      (x ∈ chainL s level ∧ ∃ l1, chainL s 0 = l1 ++ x :: suf))
    (hnz : nextOffS s x level ≠ 0) :
    ∃ m1 m2, suf = m1 ++ nextOffS s x level :: m2 ∧
      nextOffS s x level ∈ chainL s level ∧
      ∃ Q, chainL s 0 = Q ++ nextOffS s x level :: m2 := by
  have hmaxlvl : level < maxHeight := lt_of_lt_of_le hlvl (WF.height_le hWF)
  obtain ⟨hic0, hval0, hpw0⟩ := WF.chainOK hWF 0 (by decide)
  obtain ⟨hicL, hvalL, hpwL⟩ := WF.chainOK hWF level hmaxlvl
  rcases hinv with ⟨hx, hsuf⟩ | ⟨hxmem, l1, hsplit0⟩
  · subst hx
    obtain ⟨o, T, hcl⟩ : ∃ o T, chainL s level = o :: T := by
      cases hcl : chainL s level with
      | nil => rw [hcl] at hicL; exact absurd hicL hnz
      | cons o T => exact ⟨o, T, rfl⟩
    have hicL' := hicL
    rw [hcl] at hicL'
    obtain ⟨h1, h2, h3⟩ := hicL'
    have hnmem : nextOffS s headOff level ∈ chainL s level := by
      rw [hcl, h1]; exact List.mem_cons_self _ _
    have hnmem0 : nextOffS s headOff level ∈ chainL s 0 :=
      (chainL_sublist_zero hWF level hmaxlvl).subset hnmem
    obtain ⟨m1, m2, hm⟩ := List.append_of_mem hnmem0
    exact ⟨m1, m2, by rw [hsuf, hm], hnmem, m1, hm⟩
  · obtain ⟨l1', l2', hsplitL, hbefore, hafterL, hicx⟩ :=
      mem_chain_decomp hWF hmaxlvl hxmem
    obtain ⟨o, T, hl2⟩ : ∃ o T, l2' = o :: T := by
      cases hl2 : l2' with
      | nil => rw [hl2] at hicx; exact absurd hicx hnz
      | cons o T => exact ⟨o, T, rfl⟩
    rw [hl2] at hicx hafterL
    obtain ⟨h1, h2, h3⟩ := hicx
    have hnmem : nextOffS s x level ∈ chainL s level := by
      rw [hsplitL, hl2, h1]
      exact List.mem_append_right _ (List.mem_cons_of_mem _ (List.mem_cons_self _ _))
    have hnmem0 : nextOffS s x level ∈ chainL s 0 :=
      (chainL_sublist_zero hWF level hmaxlvl).subset hnmem
    have hxlt : offLt s x (nextOffS s x level) := by
      rw [h1]
      exact hafterL _ (List.mem_cons_self _ _)
    have hnsuf : nextOffS s x level ∈ suf :=
      mem_right_of_lt hpw0 hsplit0 hnmem0 hxlt
    obtain ⟨m1, m2, hm⟩ := List.append_of_mem hnsuf
    refine ⟨m1, m2, hm, hnmem, l1 ++ x :: m1, ?_⟩
    rw [hsplit0, hm]; simp

/-- The `findLast` loop reaches exactly the last element of the base chain. -/
theorem findLastAux_master {s : skiplist} (hWF : WF s) :
    ∀ (fuel x level : Nat) (suf : List Nat),
      level < s.height →
      ((x = headOff ∧ suf = chainL s 0) ∨
        (x ∈ chainL s level ∧ ∃ l1, chainL s 0 = l1 ++ x :: suf)) →
      level + suf.length < fuel →
      findLastAux s fuel x level = some ((chainL s 0).getLast?) := by
  intro fuel
  induction fuel with
  | zero => intro x level suf _ _ h; omega
  | succ fuel ih =>
    intro x level suf hlvl hinv hmeas
    have hmaxlvl : level < maxHeight := lt_of_lt_of_le hlvl (WF.height_le hWF)
    obtain ⟨hic0, hval0, hpw0⟩ := WF.chainOK hWF 0 (by decide)
    simp only [findLastAux]
    by_cases hnz : nextOffS s x level ≠ 0
    · rw [if_pos hnz]
      obtain ⟨m1, m2, hm, hnmem, Q, hQ⟩ := step_forward hWF hlvl hinv hnz
      have hlen : m2.length + 1 ≤ suf.length := by
        rw [hm, List.length_append, List.length_cons]; omega
      exact ih (nextOffS s x level) level m2 hlvl (Or.inr ⟨hnmem, Q, hQ⟩) (by omega)
    · rw [if_neg hnz]
      have hz : nextOffS s x level = 0 := not_not.mp hnz
      by_cases hl : level = 0
      · subst hl
        rw [if_pos rfl]
        rcases hinv with ⟨hx, hsuf⟩ | ⟨hxmem, l1, hsp⟩
        · subst hx
          have hchain : chainL s 0 = [] := by
            cases hcl : chainL s 0 with
            | nil => rfl
            | cons o T =>
              have h := hic0
              rw [hcl, hz] at h
              exact absurd h.1.symm h.2.1
          rw [hchain]
          rfl
        · have hsufnil : suf = [] := by
            have hicsuf : IsChainFrom s 0 (nextOffS s x 0) suf :=
              (isChainFrom_suffix s 0 l1 _ x suf (hsp ▸ hic0)).2
            cases hsuf : suf with
            | nil => rfl
            | cons o T =>
              rw [hsuf, hz] at hicsuf
              exact absurd hicsuf.1.symm hicsuf.2.1
          subst hsufnil
          have hxne : x ≠ headOff := ne_headOff_of_two_le (hval0 x hxmem).1
          rw [if_neg hxne, hsp, show (l1 ++ x :: []).getLast? = some x by simp]
      · rw [if_neg hl]
        refine ih x (level - 1) suf (by omega) ?_ (by omega)
        rcases hinv with ⟨hx, hsuf⟩ | ⟨hxmem, l1, hsp⟩
        · exact Or.inl ⟨hx, hsuf⟩
        · exact Or.inr ⟨(WF.sub hWF level hmaxlvl (by omega)).subset hxmem, l1, hsp⟩

theorem findLast_spec {s : skiplist} (hWF : WF s) :
    findLast s = some ((chainL s 0).getLast?) := by
  unfold findLast
  have hh := WF.height_pos hWF
  have hle := WF.height_le hWF
  have hcl := chainL_length_le hWF (show 0 < maxHeight by decide)
  have hlen : 0 < s.nodes.length := List.length_pos.mpr (WF.nonnil hWF)
  exact findLastAux_master hWF _ headOff (s.height - 1) (chainL s 0) (by omega)
    (Or.inl ⟨rfl, rfl⟩) (by unfold maxHeight at hle ⊢; omega)

theorem Get_spec {s : skiplist} (hWF : WF s) (key : Key) :
    Get s key = some (getSpec s key) := by
  unfold Get getSpec
  rw [findNear_spec hWF key false true]
  have ht : targetNode s key false true =
      (chainL s 0).find? (fun o => key.comp (keyOf s o) != .gt) := rfl
  rw [ht]
  cases hf : (chainL s 0).find? (fun o => key.comp (keyOf s o) != .gt) with
  | none => rfl
  | some off =>
    dsimp only
    split <;> rfl

theorem getLastD_mem_or (l : List Nat) (d : Nat) : l.getLastD d = d ∨ l.getLastD d ∈ l := by
  induction l generalizing d with
  | nil => exact Or.inl rfl
  | cons a t ih =>
    rw [List.getLastD_cons]
    rcases ih a with h | h
    · right; rw [h]; exact List.mem_cons_self _ _
    · right; exact List.mem_cons_of_mem _ h

/-- C2: on every well-formed skiplist (strictly ascending chains), `findNear`
returns, for the four flag combinations, the leftmost node strictly above the
key, the leftmost node at or above it, the rightmost node strictly below it,
or the rightmost node at or below it on the base chain — null when no such
node exists — and the returned boolean is true exactly when the returned
node's key compares equal to the search key. -/
theorem findNear_four_queries (s : skiplist) (key : Key) (less allowEqual : Bool)
    (hWF : WF s) :
    findNear s key less allowEqual =
      some (targetNode s key less allowEqual,
        targetBool s key (targetNode s key less allowEqual)) :=
  findNear_spec hWF key less allowEqual

/-- C2 witness: the four-query specification at a concrete list and key. -/
theorem findNear_four_queries_witness :
    findNear (resSk c10s) ka2 false true =
      some (targetNode (resSk c10s) ka2 false true,
        targetBool (resSk c10s) ka2 (targetNode (resSk c10s) ka2 false true)) :=
  findNear_four_queries (resSk c10s) ka2 false true (by decide)

/-- C3: `Get` is the greater-or-equal search followed by the user-key check
and version patch, on every well-formed skiplist; consequently on the
version-ordering scenario (put `"k"@3` old, put `"k"@7` new) `Get "k"@5`
returns the old value stamped with version 3 — the newest stored version at
most the requested one — and `Get "k"@10` the new value stamped 7. -/
theorem Get_resolves_version :
    (∀ s key, WF s → Get s key = some (getSpec s key)) ∧
    (c3run.map (fun p => (Get p.1 { userKey := 107 :: [], version := 5 },
        Get p.1 { userKey := 107 :: [], version := 10 })))
      = some (some { vold with version := 3 }, some { vnew with version := 7 }) :=
  ⟨fun s key hWF => Get_spec hWF key, by decide⟩

/-- C3 witness: the `Get` equation applied at a concrete list and key. -/
theorem Get_resolves_version_witness :
    Get (resSk c10s) ka2 = some (getSpec (resSk c10s) ka2) :=
  Get_resolves_version.1 (resSk c10s) ka2 (by decide)

/-- C7: starting from any chain member strictly below the key,
`findSpliceForLevel` returns an adjacent splice `(b, a)` with `b` strictly
below the key, `a` exactly `b`'s successor at that level (null allowed), the
key at most `a` whenever `a` is non-null, and the match flag exactly on a
compare-equal `a`. -/
theorem findSpliceForLevel_splice (s : skiplist) (key : Key) (level before : Nat)
    (hWF : WF s) (hlvl : level < maxHeight) (hmem : before ∈ chainL s level)
    (hgt : key.comp (keyOf s before) = .gt) :
    ∃ b a m, findSpliceForLevel s key before level = some (b, a, m) ∧
      key.comp (keyOf s b) = .gt ∧
      a = nextOffS s b level ∧
      (a ≠ 0 → key.comp (keyOf s a) ≠ .gt) ∧
      (m = true ↔ a ≠ 0 ∧ key.comp (keyOf s a) = .eq) := by
  obtain ⟨l1, l2, hsplit, hbef, haft, hic⟩ := mem_chain_decomp hWF hlvl hmem
  obtain ⟨hicL, hvalL, hpwL⟩ := WF.chainOK hWF level hlvl
  have hpwl2 : l2.Pairwise (offLt s) := by
    have h := hpwL
    rw [hsplit, List.pairwise_append] at h
    exact (List.pairwise_cons.mp h.2.1).2
  have hlen : l2.length < s.nodes.length + 1 := by
    have h1 := chainL_length_le hWF hlvl
    have h2 : (chainL s level).length = l1.length + (l2.length + 1) := by
      rw [hsplit, List.length_append, List.length_cons]
    omega
  obtain ⟨b, a, m, P, S, hrun, hsufeq, hP, hS, hb, ha, hbic, hm⟩ :=
    findSpliceAux_spec s key level l2 before (s.nodes.length + 1) hic hpwl2 hlen
  refine ⟨b, a, m, hrun, ?_, ?_, ?_, hm⟩
  · rcases getLastD_mem_or P before with h | h
    · rw [hb, h]; exact hgt
    · rw [hb]; exact hP _ h
  · rw [ha]
    exact (isChainFrom_head s level _ S hbic).symm
  · intro hane
    have haS : a ∈ S := by
      cases hSs : S with
      | nil =>
        rw [hSs] at ha
        exact absurd ha hane
      | cons c T =>
        rw [hSs] at ha
        rw [ha]
        exact List.mem_cons_self _ _
    exact hS a haS

/-- C7 witness: a concrete splice from a member node below the key. -/
theorem findSpliceForLevel_splice_witness :
    ∃ b a m, findSpliceForLevel (resSk c3run) { userKey := 200 :: [], version := 1 } 3 0
        = some (b, a, m) ∧
      Key.comp { userKey := 200 :: [], version := 1 } (keyOf (resSk c3run) b) = .gt ∧
      a = nextOffS (resSk c3run) b 0 ∧
      (a ≠ 0 → Key.comp { userKey := 200 :: [], version := 1 } (keyOf (resSk c3run) a) ≠ .gt) ∧
      (m = true ↔ a ≠ 0 ∧
        Key.comp { userKey := 200 :: [], version := 1 } (keyOf (resSk c3run) a) = .eq) :=
  findSpliceForLevel_splice (resSk c3run) { userKey := 200 :: [], version := 1 } 0 3
    (by decide) (by decide) (by decide) (by decide)

/-- C8: reads are total and never surface the head sentinel: a found
`findNear` node and a found `findLast` node are never the head, and on a
fresh skiplist `Empty` is true, `Get` of any key is the empty value, and
`SeekToFirst` leaves the iterator invalid. -/
theorem reads_total_never_head :
    (∀ s key less ae o b, WF s → findNear s key less ae = some (some o, b) →
      o ≠ headOff) ∧
    (∀ s o, WF s → findLast s = some (some o) → o ≠ headOff) ∧
    Empty newSkiplist = some true ∧
    (∀ key, Get newSkiplist key = some emptyVS) ∧
    iterValid (seekToFirst newSkiplist) = false := by
  refine ⟨?_, ?_, rfl, fun key => rfl, rfl⟩
  · intro s key less ae o b hWF hres
    rw [findNear_spec hWF key less ae] at hres
    have := (Option.some_inj.mp hres)
    have ht : targetNode s key less ae = some o := congrArg Prod.fst this
    obtain ⟨hic0, hval0, hpw0⟩ := WF.chainOK hWF 0 (by decide)
    exact ne_headOff_of_two_le (hval0 o (targetNode_mem ht)).1
  · intro s o hWF hres
    rw [findLast_spec hWF] at hres
    have ht : (chainL s 0).getLast? = some o := Option.some_inj.mp hres
    obtain ⟨hic0, hval0, hpw0⟩ := WF.chainOK hWF 0 (by decide)
    exact ne_headOff_of_two_le (hval0 o (List.mem_of_mem_getLast? ht)).1

/-- C8 witness: the never-head guarantee applied at a concrete search. -/
theorem reads_total_never_head_witness :
    (2 : Nat) ≠ headOff :=
  reads_total_never_head.1 (resSk c10s) ka false true 2 true (by decide) (by decide)

/-! #### Pointwise store-update lemmas -/

theorem getLastD_mem_of_ne_nil : ∀ (l : List Nat) (d : Nat), l ≠ [] → l.getLastD d ∈ l := by
  intro l d hne
  rcases getLastD_mem_or l d with h | h
  · cases l with
    | nil => exact absurd rfl hne
    | cons c t =>
      rw [List.getLastD_cons] at h ⊢
      rcases getLastD_mem_or t c with h2 | h2
      · rw [h2]; exact List.mem_cons_self _ _
      · exact List.mem_cons_of_mem _ h2
  · exact h

theorem getLastD_append_cons (c : Nat) (t : List Nat) (d : Nat) :
    ∀ l1 : List Nat, (l1 ++ c :: t).getLastD d = (c :: t).getLastD d := by
  intro l1
  induction l1 generalizing d with
  | nil => rfl
  | cons e r ih =>
    rw [List.cons_append, List.getLastD_cons]
    rcases r with _ | ⟨e2, r2⟩
    · rfl
    · exact ih e

theorem updNode_length : ∀ (ns : List node) (off : Nat) (f : node → node),
    (updNode ns off f).length = ns.length := by
  intro ns
  induction ns with
  | nil => intro off f; cases off <;> simp [updNode]
  | cons n rest ih =>
    intro off f
    match off with
    | 0 => rfl
    | 1 => rfl
    | o + 2 => simp only [updNode, List.length_cons, ih (o + 1) f]

theorem updNode_get?_self : ∀ (ns : List node) (o : Nat) (f : node → node),
    (updNode ns (o + 1) f).get? o = (ns.get? o).map f := by
  intro ns
  induction ns with
  | nil => intro o f; cases o <;> simp [updNode]
  | cons n rest ih =>
    intro o f
    match o with
    | 0 => rfl
    | o + 1 =>
      show (updNode rest (o + 1) f).get? o = _
      rw [ih o f]
      rfl

theorem updNode_get?_ne : ∀ (ns : List node) (off o : Nat) (f : node → node),
    off ≠ o + 1 → (updNode ns off f).get? o = ns.get? o := by
  intro ns
  induction ns with
  | nil => intro off o f _; cases off <;> simp [updNode]
  | cons n rest ih =>
    intro off o f hne
    match off, o with
    | 0, _ => rfl
    | 1, 0 => exact absurd rfl hne
    | 1, o + 1 => rfl
    | off + 2, 0 => rfl
    | off + 2, o + 1 =>
      show (updNode rest (off + 1) f).get? o = rest.get? o
      exact ih (off + 1) o f (by omega)

theorem nodeAt_updNode_self {s : skiplist} {off : Nat} (f : node → node)
    (h1 : 1 ≤ off) (h2 : off ≤ s.nodes.length) :
    nodeAt { s with nodes := updNode s.nodes off f } off = f (nodeAt s off) := by
  match off, h1 with
  | o + 1, _ =>
    show ((updNode s.nodes (o + 1) f).get? o).getD dummyNode
        = f ((s.nodes.get? o).getD dummyNode)
    rw [updNode_get?_self, List.get?_eq_get (show o < s.nodes.length by omega)]
    rfl

theorem nodeAt_updNode_ne {s : skiplist} {off o : Nat} (f : node → node) (h : off ≠ o) :
    nodeAt { s with nodes := updNode s.nodes off f } o = nodeAt s o := by
  match o with
  | 0 => rfl
  | o + 1 =>
    show ((updNode s.nodes off f).get? o).getD dummyNode = (s.nodes.get? o).getD dummyNode
    rw [updNode_get?_ne _ _ _ _ h]

theorem keyOf_setTower (s : skiplist) (p i t o : Nat) :
    keyOf { s with nodes := setTower s.nodes p i t } o = keyOf s o := by
  match o with
  | 0 => rfl
  | o + 1 =>
    show (((setTower s.nodes p i t).get? o).getD dummyNode).key
        = ((s.nodes.get? o).getD dummyNode).key
    unfold setTower
    by_cases hp : p = o + 1
    · subst hp
      rw [updNode_get?_self]
      cases s.nodes.get? o <;> rfl
    · rw [updNode_get?_ne _ _ _ _ hp]

theorem valOf_setTower (s : skiplist) (p i t o : Nat) :
    valOf { s with nodes := setTower s.nodes p i t } o = valOf s o := by
  match o with
  | 0 => rfl
  | o + 1 =>
    show (((setTower s.nodes p i t).get? o).getD dummyNode).value
        = ((s.nodes.get? o).getD dummyNode).value
    unfold setTower
    by_cases hp : p = o + 1
    · subst hp
      rw [updNode_get?_self]
      cases s.nodes.get? o <;> rfl
    · rw [updNode_get?_ne _ _ _ _ hp]

theorem towerLen_setTower (s : skiplist) (p i t o : Nat) :
    (nodeAt { s with nodes := setTower s.nodes p i t } o).tower.length
      = (nodeAt s o).tower.length := by
  match o with
  | 0 => rfl
  | o + 1 =>
    show (((setTower s.nodes p i t).get? o).getD dummyNode).tower.length
        = ((s.nodes.get? o).getD dummyNode).tower.length
    unfold setTower
    by_cases hp : p = o + 1
    · subst hp
      rw [updNode_get?_self]
      cases s.nodes.get? o with
      | none => rfl
      | some n => exact List.length_set n.tower i t
    · rw [updNode_get?_ne _ _ _ _ hp]

theorem nextOffS_setTower_ne (s : skiplist) (p i t o lvl : Nat) (h : p ≠ o) :
    nextOffS { s with nodes := setTower s.nodes p i t } o lvl = nextOffS s o lvl := by
  unfold nextOffS setTower
  rw [nodeAt_updNode_ne _ h]

theorem nextOffS_setTower_ne_lvl (s : skiplist) (p i t o lvl : Nat) (h : lvl ≠ i) :
    nextOffS { s with nodes := setTower s.nodes p i t } o lvl = nextOffS s o lvl := by
  match o with
  | 0 => rfl
  | o + 1 =>
    show (((setTower s.nodes p i t).get? o).getD dummyNode).tower.getD lvl 0
        = ((s.nodes.get? o).getD dummyNode).tower.getD lvl 0
    unfold setTower
    by_cases hp : p = o + 1
    · subst hp
      rw [updNode_get?_self]
      cases s.nodes.get? o with
      | none => rfl
      | some n =>
        show (n.tower.set i t).getD lvl 0 = n.tower.getD lvl 0
        exact getD_set_ne _ _ _ (fun hh => h hh.symm)
    · rw [updNode_get?_ne _ _ _ _ hp]

theorem nextOffS_setTower_self (s : skiplist) (p i t : Nat)
    (h1 : 1 ≤ p) (h2 : p ≤ s.nodes.length) (h3 : i < (nodeAt s p).tower.length) :
    nextOffS { s with nodes := setTower s.nodes p i t } p i = t := by
  unfold nextOffS setTower
  rw [nodeAt_updNode_self _ h1 h2]
  exact getD_set_self _ _ _ _ h3

theorem length_setTower (ns : List node) (p i t : Nat) :
    (setTower ns p i t).length = ns.length := updNode_length ns p _

theorem keyOf_setValueAt (s : skiplist) (p o : Nat) (v : ValueStruct) :
    keyOf { s with nodes := setValueAt s.nodes p v } o = keyOf s o := by
  match o with
  | 0 => rfl
  | o + 1 =>
    show (((setValueAt s.nodes p v).get? o).getD dummyNode).key
        = ((s.nodes.get? o).getD dummyNode).key
    unfold setValueAt
    by_cases hp : p = o + 1
    · subst hp
      rw [updNode_get?_self]
      cases s.nodes.get? o <;> rfl
    · rw [updNode_get?_ne _ _ _ _ hp]

theorem nextOffS_setValueAt (s : skiplist) (p o lvl : Nat) (v : ValueStruct) :
    nextOffS { s with nodes := setValueAt s.nodes p v } o lvl = nextOffS s o lvl := by
  match o with
  | 0 => rfl
  | o + 1 =>
    show (((setValueAt s.nodes p v).get? o).getD dummyNode).tower.getD lvl 0
        = ((s.nodes.get? o).getD dummyNode).tower.getD lvl 0
    unfold setValueAt
    by_cases hp : p = o + 1
    · subst hp
      rw [updNode_get?_self]
      cases s.nodes.get? o <;> rfl
    · rw [updNode_get?_ne _ _ _ _ hp]

theorem towerLen_setValueAt (s : skiplist) (p o : Nat) (v : ValueStruct) :
    (nodeAt { s with nodes := setValueAt s.nodes p v } o).tower.length
      = (nodeAt s o).tower.length := by
  match o with
  | 0 => rfl
  | o + 1 =>
    show (((setValueAt s.nodes p v).get? o).getD dummyNode).tower.length
        = ((s.nodes.get? o).getD dummyNode).tower.length
    unfold setValueAt
    by_cases hp : p = o + 1
    · subst hp
      rw [updNode_get?_self]
      cases s.nodes.get? o <;> rfl
    · rw [updNode_get?_ne _ _ _ _ hp]

theorem valOf_setValueAt_self {s : skiplist} {p : Nat} (v : ValueStruct)
    (h1 : 1 ≤ p) (h2 : p ≤ s.nodes.length) :
    valOf { s with nodes := setValueAt s.nodes p v } p = storedVal v := by
  unfold valOf setValueAt
  rw [nodeAt_updNode_self _ h1 h2]

theorem valOf_setValueAt_ne {s : skiplist} {p o : Nat} (v : ValueStruct) (h : p ≠ o) :
    valOf { s with nodes := setValueAt s.nodes p v } o = valOf s o := by
  unfold valOf setValueAt
  rw [nodeAt_updNode_ne _ h]

theorem length_setValueAt (ns : List node) (p : Nat) (v : ValueStruct) :
    (setValueAt ns p v).length = ns.length := updNode_length ns p _

theorem chainAux_congr {s s2 : skiplist} {level : Nat}
    (h : ∀ o, nextOffS s2 o level = nextOffS s o level) :
    ∀ fuel off, chainAux s2 level fuel off = chainAux s level fuel off := by
  intro fuel
  induction fuel with
  | zero => intro off; rfl
  | succ f ih =>
    intro off
    match off with
    | 0 => rfl
    | o + 1 =>
      show (o + 1) :: chainAux s2 level f (nextOffS s2 (o + 1) level)
          = (o + 1) :: chainAux s level f (nextOffS s (o + 1) level)
      rw [h, ih]

theorem isChainFrom_congr {s s2 : skiplist} {level : Nat} :
    ∀ {l : List Nat} {start : Nat},
      IsChainFrom s level start l →
      (∀ o ∈ l, nextOffS s2 o level = nextOffS s o level) →
      IsChainFrom s2 level start l := by
  intro l
  induction l with
  | nil => intro start h _; exact h
  | cons o rest ih =>
    intro start h hn
    obtain ⟨h1, h2, h3⟩ := h
    refine ⟨h1, h2, ?_⟩
    rw [hn o (List.mem_cons_self _ _)]
    exact ih h3 (fun o' ho' => hn o' (List.mem_cons_of_mem _ ho'))

theorem crh_fresh (s : skiplist) (key : Key) (H : Nat) (hH : 0 < H) :
    calculateRecomputeHeight s key freshHint H =
      (H, { freshHint with
        prev := freshHint.prev.set H headOff
        next := freshHint.next.set H 0
        height := H, hitHeight := H }) := by
  unfold calculateRecomputeHeight
  rw [if_pos (show freshHint.height < H from hH)]

/-! #### The splice-recomputation descent -/

/-- `findSpliceForLevel` from the head or from a chain member strictly below
the key computes the canonical splice of that level. -/
theorem findSplice_canonical {s : skiplist} (hWF : WF s) (key : Key) {i p : Nat}
    (hi : i < maxHeight)
    (hp : p = headOff ∨ (p ∈ chainL s i ∧ key.comp (keyOf s p) = .gt)) :
    ∃ b a m, findSpliceForLevel s key p i = some (b, a, m) ∧
      SpliceAt s key i b a ∧
      (m = true ↔ a ≠ 0 ∧ key.comp (keyOf s a) = .eq) ∧
      (b = headOff ∨ (b ∈ chainL s i ∧ key.comp (keyOf s b) = .gt)) ∧
      (a ≠ 0 → a ∈ chainL s i ∧ key.comp (keyOf s a) ≠ .gt) := by
  obtain ⟨hicL, hvalL, hpwL⟩ := WF.chainOK hWF i hi
  have hlenchain := chainL_length_le hWF hi
  have hnodes : 0 < s.nodes.length := List.length_pos.mpr (WF.nonnil hWF)
  rcases hp with hp | ⟨hpmem, hpgt⟩
  · subst hp
    obtain ⟨b, a, m, P, S, hrun, hsufeq, hP, hS, hb, ha, hbic, hm⟩ :=
      findSpliceAux_spec s key i (chainL s i) headOff (s.nodes.length + 1) hicL hpwL
        (by omega)
    refine ⟨b, a, m, hrun, ⟨P, S, hsufeq, hP, hS, hb, ha, ?_⟩, hm, ?_, ?_⟩
    · rw [ha]; exact isChainFrom_head s i _ S hbic
    · rcases getLastD_mem_or P headOff with h | h
      · exact Or.inl (by rw [hb, h])
      · refine Or.inr ⟨?_, by rw [hb]; exact hP _ h⟩
        rw [hb, hsufeq]
        exact List.mem_append_left _ h
    · intro hane
      obtain ⟨c, T, hSs⟩ : ∃ c T, S = c :: T := by
        cases hSs : S with
        | nil => rw [hSs] at ha; exact absurd ha hane
        | cons c T => exact ⟨c, T, rfl⟩
      rw [hSs] at ha
      have hac : a = c := ha
      constructor
      · rw [hac, hsufeq, hSs]
        exact List.mem_append_right _ (List.mem_cons_self _ _)
      · exact hS a (by rw [hSs, hac]; exact List.mem_cons_self _ _)
  · obtain ⟨l1, l2, hsplit, hbef, haft, hicp⟩ := mem_chain_decomp hWF hi hpmem
    have hpwl2 : l2.Pairwise (offLt s) := by
      have h := hpwL
      rw [hsplit, List.pairwise_append] at h
      exact (List.pairwise_cons.mp h.2.1).2
    have hlenl2 : l2.length < s.nodes.length + 1 := by
      have h2 : (chainL s i).length = l1.length + (l2.length + 1) := by
        rw [hsplit, List.length_append, List.length_cons]
      omega
    obtain ⟨b, a, m, P, S, hrun, hsufeq, hP, hS, hb, ha, hbic, hm⟩ :=
      findSpliceAux_spec s key i l2 p (s.nodes.length + 1) hicp hpwl2 hlenl2
    have hsplitFull : chainL s i = (l1 ++ p :: P) ++ S := by
      rw [hsplit, hsufeq]; simp
    have hPfull : ∀ o ∈ l1 ++ p :: P, key.comp (keyOf s o) = .gt := by
      intro o ho
      rcases List.mem_append.mp ho with h | h
      · exact Key.comp_gt_of_gt_of_lt hpgt (hbef o h)
      · rcases List.mem_cons.mp h with h | h
        · subst h; exact hpgt
        · exact hP o h
    refine ⟨b, a, m, hrun, ⟨l1 ++ p :: P, S, hsplitFull, hPfull, hS, ?_, ha, ?_⟩,
      hm, ?_, ?_⟩
    · rw [hb, getLastD_append_cons, List.getLastD_cons]
    · rw [ha]; exact isChainFrom_head s i _ S hbic
    · rcases getLastD_mem_or P p with h | h
      · exact Or.inr ⟨by rw [hb, h]; exact hpmem, by rw [hb, h]; exact hpgt⟩
      · refine Or.inr ⟨?_, by rw [hb]; exact hP _ h⟩
        rw [hb, hsplitFull]
        exact List.mem_append_left _
          (List.mem_append_right _ (List.mem_cons_of_mem _ h))
    · intro hane
      obtain ⟨c, T, hSs⟩ : ∃ c T, S = c :: T := by
        cases hSs : S with
        | nil => rw [hSs] at ha; exact absurd ha hane
        | cons c T => exact ⟨c, T, rfl⟩
      rw [hSs] at ha
      have hac : a = c := ha
      constructor
      · rw [hac, hsplitFull, hSs]
        exact List.mem_append_right _ (List.mem_cons_self _ _)
      · exact hS a (by rw [hSs, hac]; exact List.mem_cons_self _ _)

/-- A no-match base-level splice rules out any compare-equal node. -/
theorem spliceAt_no_eq {s : skiplist} (hWF : WF s) {key : Key} {b a : Nat}
    (hsp : SpliceAt s key 0 b a)
    (hma : ¬(a ≠ 0 ∧ key.comp (keyOf s a) = .eq)) :
    ∀ o ∈ chainL s 0, key.comp (keyOf s o) ≠ .eq := by
  obtain ⟨P, S, hsplit, hP, hS, hb, ha, hnext⟩ := hsp
  obtain ⟨hic0, hval0, hpw0⟩ := WF.chainOK hWF 0 (by decide)
  intro o ho
  rw [hsplit] at ho
  rcases List.mem_append.mp ho with hoP | hoS
  · rw [hP o hoP]; simp
  · obtain ⟨c, T, hSs⟩ : ∃ c T, S = c :: T := by
      cases hSs : S with
      | nil => rw [hSs] at hoS; exact absurd hoS (List.not_mem_nil o)
      | cons c T => exact ⟨c, T, rfl⟩
    rw [hSs] at hoS ha
    have hac : a = c := ha
    have hcmem : c ∈ chainL s 0 := by
      rw [hsplit, hSs]
      exact List.mem_append_right _ (List.mem_cons_self _ _)
    have hcval : 2 ≤ c := (hval0 c hcmem).1
    have hane : a ≠ 0 := by omega
    have hceq : key.comp (keyOf s c) ≠ .eq := by
      intro hcontra
      exact hma ⟨hane, by rw [hac]; exact hcontra⟩
    rcases List.mem_cons.mp hoS with h | h
    · subst h; exact hceq
    · have hcngt := hS c (by rw [hSs]; exact List.mem_cons_self _ _)
      have hclt : key.comp (keyOf s c) = .lt := by
        cases hcc : key.comp (keyOf s c) with
        | lt => rfl
        | eq => exact absurd hcc hceq
        | gt => exact absurd hcc hcngt
      have hco : offLt s c o := by
        have hpw := hpw0
        rw [hsplit, hSs, List.pairwise_append] at hpw
        exact (List.pairwise_cons.mp hpw.2.1).1 o h
      rw [Key.comp_lt_trans hclt hco]
      simp

/-- The splice descent either reports the unique compare-equal node or, when
none exists, fills every processed level with its canonical splice. -/
theorem spliceLoop_master {s : skiplist} (hWF : WF s) (key : Key) :
    ∀ (n : Nat) (h : hint),
      n ≤ maxHeight →
      h.prev.length = maxHeight + 1 →
      h.next.length = maxHeight + 1 →
      (0 < n → (h.prev.getD n 0 = headOff ∨
        (h.prev.getD n 0 ∈ chainL s (n - 1) ∧
          key.comp (keyOf s (h.prev.getD n 0)) = .gt))) →
      ∃ h2,
        h2.prev.length = maxHeight + 1 ∧
        h2.next.length = maxHeight + 1 ∧
        (∀ j, n ≤ j → h2.prev.getD j 0 = h.prev.getD j 0 ∧
          h2.next.getD j 0 = h.next.getD j 0) ∧
        ((∃ off lv, spliceLoop s key n h = some (h2, some (off, lv)) ∧ lv < n ∧
            off ∈ chainL s 0 ∧ key.comp (keyOf s off) = .eq) ∨
          (spliceLoop s key n h = some (h2, none) ∧
            (0 < n → ∀ o ∈ chainL s 0, key.comp (keyOf s o) ≠ .eq) ∧
            (∀ lv, lv < n →
              SpliceAt s key lv (h2.prev.getD lv 0) (h2.next.getD lv 0)))) := by
  intro n
  induction n with
  | zero =>
    intro h _ hpl hnl _
    exact ⟨h, hpl, hnl, fun j _ => ⟨rfl, rfl⟩,
      Or.inr ⟨rfl, fun h0 => absurd h0 (by omega),
        fun lv hlv => absurd hlv (by omega)⟩⟩
  | succ n ih =>
    intro h hn hpl hnl hinv
    have hi : n < maxHeight := by omega
    obtain ⟨b, a, m, hrun, hsplice, hmiff, hbW, haW⟩ :=
      findSplice_canonical hWF key hi (hinv (by omega))
    have hp1 : (h.prev.set n b).length = maxHeight + 1 := by
      rw [List.length_set]; exact hpl
    have hn1 : (h.next.set n a).length = maxHeight + 1 := by
      rw [List.length_set]; exact hnl
    have hgetb : (h.prev.set n b).getD n 0 = b :=
      getD_set_self _ _ _ _ (by omega)
    have hgeta : (h.next.set n a).getD n 0 = a :=
      getD_set_self _ _ _ _ (by omega)
    have hupp : ∀ j, n + 1 ≤ j → (h.prev.set n b).getD j 0 = h.prev.getD j 0 :=
      fun j hj => getD_set_ne _ _ _ (by omega)
    have hupn : ∀ j, n + 1 ≤ j → (h.next.set n a).getD j 0 = h.next.getD j 0 :=
      fun j hj => getD_set_ne _ _ _ (by omega)
    cases m with
    | true =>
      have hmi := hmiff.mp rfl
      refine ⟨{ h with prev := h.prev.set n b, next := h.next.set n a },
        hp1, hn1, fun j hj => ⟨hupp j hj, hupn j hj⟩,
        Or.inl ⟨a, n, ?_, by omega, ?_, hmi.2⟩⟩
      · unfold spliceLoop
        rw [hrun]
        rfl
      · exact (chainL_sublist_zero hWF n hi).subset (haW hmi.1).1
    | false =>
      obtain ⟨h2, hp2, hn2, hup2, hres⟩ :=
        ih { h with prev := h.prev.set n b, next := h.next.set n a } (by omega) hp1 hn1
          (fun h0 => by
            have hb' : (h.prev.set n b).getD n 0 = b := hgetb
            rw [hb']
            rcases hbW with hh | ⟨hmem, hgt⟩
            · exact Or.inl hh
            · refine Or.inr ⟨?_, hgt⟩
              rcases Nat.eq_zero_or_pos n with hn0 | hn0
              · rw [hn0] at hmem ⊢
                exact hmem
              · have := WF.sub hWF n hi hn0
                exact this.subset hmem)
      have hcomb : ∀ j, n + 1 ≤ j →
          h2.prev.getD j 0 = h.prev.getD j 0 ∧ h2.next.getD j 0 = h.next.getD j 0 := by
        intro j hj
        obtain ⟨hu1, hu2⟩ := hup2 j (by omega)
        exact ⟨hu1.trans (hupp j hj), hu2.trans (hupn j hj)⟩
      rcases hres with ⟨off, lv, heq, hlv, hoff0, hoffeq⟩ | ⟨heq, hnoeq, hsps⟩
      · refine ⟨h2, hp2, hn2, hcomb, Or.inl ⟨off, lv, ?_, by omega, hoff0, hoffeq⟩⟩
        unfold spliceLoop
        rw [hrun]
        exact heq
      · have hspn : SpliceAt s key n b a := hsplice
        have hgetb2 : h2.prev.getD n 0 = b := (hup2 n (le_refl n)).1.trans hgetb
        have hgeta2 : h2.next.getD n 0 = a := (hup2 n (le_refl n)).2.trans hgeta
        refine ⟨h2, hp2, hn2, hcomb, Or.inr ⟨?_, ?_, ?_⟩⟩
        · unfold spliceLoop
          rw [hrun]
          exact heq
        · intro _
          rcases Nat.eq_zero_or_pos n with hn0 | hn0
          · subst hn0
            exact spliceAt_no_eq hWF hspn
              (fun hcon => by
                have := hmiff.mpr hcon
                exact absurd this (by simp))
          · exact hnoeq hn0
        · intro lv hlv
          rcases Nat.lt_or_ge lv n with h1 | h1
          · exact hsps lv h1
          · have hlvn : lv = n := by omega
            subst hlvn
            rw [hgetb2, hgeta2]
            exact hspn

/-! #### Transfer lemmas for height changes, appends, and relinking -/

theorem nextOffS_irrel_height (s : skiplist) (H o lvl : Nat) :
    nextOffS { s with height := H } o lvl = nextOffS s o lvl := by
  match o with
  | 0 => rfl
  | o + 1 => rfl

theorem keyOf_irrel_height (s : skiplist) (H o : Nat) :
    keyOf { s with height := H } o = keyOf s o := by
  match o with
  | 0 => rfl
  | o + 1 => rfl

theorem chainL_irrel_height (s : skiplist) (H lvl : Nat) :
    chainL { s with height := H } lvl = chainL s lvl := by
  show chainAux { s with height := H } lvl (s.nodes.length + 1)
      (nextOffS { s with height := H } headOff lvl) = _
  rw [nextOffS_irrel_height]
  exact chainAux_congr (fun o => nextOffS_irrel_height s H o lvl) _ _

theorem WF_set_height {s : skiplist} (hWF : WF s) {H : Nat} (h1 : 1 ≤ H)
    (h2 : H ≤ maxHeight) (h3 : s.height ≤ H) : WF { s with height := H } := by
  obtain ⟨w1, w2, w3, w4, w5, w6, w7, w8⟩ := hWF
  have hch : ∀ lvl, chainL { s with height := H } lvl = chainL s lvl :=
    fun lvl => chainL_irrel_height s H lvl
  refine ⟨w1, h1, h2, ?_, ?_, ?_, ?_, ?_⟩
  · intro level hl
    obtain ⟨c1, c2, c3⟩ := w4 level hl
    refine ⟨?_, ?_, ?_⟩
    · rw [hch]
      exact isChainFrom_congr c1 (fun o _ => nextOffS_irrel_height s H o level)
    · rw [hch]; exact c2
    · rw [hch]; exact c3
  · intro level hl hH
    rw [hch]
    exact w5 level hl (le_trans h3 hH)
  · intro level hl h0
    rw [hch, hch]
    exact w6 level hl h0
  · intro o ho h2o
    rw [hch]
    exact w7 o ho h2o
  · intro o ho h1o
    exact w8 o ho h1o

theorem getD_replicate (n i : Nat) : (List.replicate n (0 : Nat)).getD i 0 = 0 := by
  induction n generalizing i with
  | zero => rfl
  | succ n ih =>
    cases i with
    | zero => rfl
    | succ i => exact ih i

theorem nodeAt_append_old {s : skiplist} (x : node) {o : Nat} (h : o ≤ s.nodes.length) :
    nodeAt { s with nodes := s.nodes ++ x :: [] } o = nodeAt s o := by
  match o, h with
  | 0, _ => rfl
  | o + 1, h =>
    show ((s.nodes ++ x :: []).get? o).getD dummyNode = (s.nodes.get? o).getD dummyNode
    rw [List.get?_append (show o < s.nodes.length by omega)]

theorem nodeAt_append_new (s : skiplist) (x : node) :
    nodeAt { s with nodes := s.nodes ++ x :: [] } (s.nodes.length + 1) = x := by
  show ((s.nodes ++ x :: []).get? s.nodes.length).getD dummyNode = x
  rw [List.get?_concat_length]
  rfl

theorem filter_append_of_neg_pos {p : Nat → Bool} {l1 l2 : List Nat}
    (h1 : ∀ x ∈ l1, p x = false) (h2 : ∀ x ∈ l2, p x = true) :
    (l1 ++ l2).filter p = l2 := by
  rw [List.filter_append, List.filter_eq_nil_iff.mpr (by intro a ha; simp [h1 a ha]),
    List.filter_eq_self.mpr h2, List.nil_append]

theorem Key.sameUserKey_self (k : Key) : k.sameUserKey k = true := by
  unfold Key.sameUserKey
  simp

theorem eq_node_unique {s : skiplist} (hWF : WF s) {key : Key} {off off' : Nat}
    (h1 : off ∈ chainL s 0) (h2 : off' ∈ chainL s 0)
    (e1 : key.comp (keyOf s off) = .eq) (e2 : key.comp (keyOf s off') = .eq) :
    off = off' := by
  obtain ⟨hic0, hval0, hpw0⟩ := WF.chainOK hWF 0 (by decide)
  have k1 : key = keyOf s off := (Key.comp_eq_iff _ _).mp e1
  have k2 : key = keyOf s off' := (Key.comp_eq_iff _ _).mp e2
  by_contra hne
  have hpw' : (chainL s 0).Pairwise (fun a b => keyOf s a ≠ keyOf s b) := by
    refine List.Pairwise.imp ?_ hpw0
    intro a b hab hkeq
    unfold offLt at hab
    rw [hkeq, Key.comp_self] at hab
    exact absurd hab (by simp)
  have hsym : Symmetric (fun a b => keyOf s a ≠ keyOf s b) :=
    fun a b hab hkeq => hab hkeq.symm
  exact (List.Pairwise.forall hsym hpw' h1 h2 hne) (k1 ▸ k2 ▸ rfl)

theorem find_ge_of_eq_mem {s : skiplist} (hWF : WF s) {key : Key} {off : Nat}
    (hmem : off ∈ chainL s 0) (heq : key.comp (keyOf s off) = .eq) :
    (chainL s 0).find? (fun o => key.comp (keyOf s o) != .gt) = some off := by
  obtain ⟨hic0, hval0, hpw0⟩ := WF.chainOK hWF 0 (by decide)
  obtain ⟨l1, l2, hsplit⟩ := List.append_of_mem hmem
  have hpre : ∀ o ∈ l1, key.comp (keyOf s o) = .gt :=
    prefix_all_gt hpw0 hsplit (by simp [heq])
  rw [hsplit, find?_append_of_neg (fun o ho => by rw [hpre o ho]; rfl)]
  exact List.find?_cons_of_pos _ (by rw [heq]; rfl)

/-- Relinking a chain through a fresh node: if in the new store the splice
node `b` points to `xOff`, `xOff` points to `a`, and everything else on the
chain is untouched, the chain gains exactly `xOff` between prefix and
suffix. -/
theorem isChainFrom_relink {s1 s2 : skiplist} {i xOff a b : Nat}
    (hxnext : nextOffS s2 xOff i = a) (hx0 : xOff ≠ 0)
    (hkeep : ∀ o, o ≠ b → o ≠ xOff → nextOffS s2 o i = nextOffS s1 o i)
    (hbnew : nextOffS s2 b i = xOff)
    (hanext : nextOffS s1 b i = a) :
    ∀ (P S : List Nat) (p0 : Nat),
      IsChainFrom s1 i (nextOffS s1 p0 i) (P ++ S) →
      b = P.getLastD p0 →
      b ∉ S → xOff ∉ P → xOff ∉ S →
      p0 ∉ P → p0 ≠ xOff →
      (P ++ S).Nodup →
      IsChainFrom s2 i (nextOffS s2 p0 i) (P ++ xOff :: S) := by
  intro P
  induction P with
  | nil =>
    intro S p0 hic hb hbS hxP hxS hp0P hp0x hnd
    have hb0 : b = p0 := hb
    subst hb0
    rw [hbnew]
    refine ⟨rfl, hx0, ?_⟩
    rw [hxnext]
    rw [hanext] at hic
    refine isChainFrom_congr hic ?_
    intro o ho
    exact hkeep o (fun hob => hbS (hob ▸ ho)) (fun hox => hxS (hox ▸ ho))
  | cons c P' ih =>
    intro S p0 hic hb hbS hxP hxS hp0P hp0x hnd
    obtain ⟨h1, h2, h3⟩ := hic
    have hbP : b ∈ c :: P' := by
      rw [hb, List.getLastD_cons]
      rcases getLastD_mem_or P' c with h | h
      · rw [h]; exact List.mem_cons_self _ _
      · exact List.mem_cons_of_mem _ h
    have hp0b : p0 ≠ b := fun hc => hp0P (hc ▸ hbP)
    have hp0keep : nextOffS s2 p0 i = c := by
      rw [hkeep p0 hp0b hp0x, h1]
    refine ⟨hp0keep, h2, ?_⟩
    exact ih S c h3
      (by rw [hb, List.getLastD_cons])
      hbS (fun hc => hxP (List.mem_cons_of_mem _ hc)) hxS
      (by
        intro hc
        have := List.pairwise_cons.mp hnd
        exact (this.1 c (List.mem_append_left _ hc)) rfl)
      (fun hc => hxP (hc ▸ List.mem_cons_self _ _))
      ((List.pairwise_cons.mp hnd).2)

theorem randomHeightFrom_bounds (ds : List Nat) :
    ∀ h, 1 ≤ h → h ≤ maxHeight →
      1 ≤ randomHeightFrom h ds ∧ randomHeightFrom h ds ≤ maxHeight := by
  induction ds with
  | nil => intro h h1 h2; exact ⟨h1, h2⟩
  | cons d ds ih =>
    intro h h1 h2
    unfold randomHeightFrom
    split
    · rename_i hc
      simp only [Bool.and_eq_true, decide_eq_true_eq] at hc
      exact ih (h + 1) (Nat.le_succ_of_le h1) hc.1
    · exact ⟨h1, h2⟩

theorem randomHeight_bounds (ds : List Nat) :
    1 ≤ randomHeight ds ∧ randomHeight ds ≤ maxHeight :=
  randomHeightFrom_bounds ds 1 le_rfl (by decide)

theorem linkLevel_height (key : Key) (xOff i : Nat) :
    ∀ fuel s h inv r, linkLevel key xOff i fuel s h inv = some r →
      r.1.height = s.height := by
  intro fuel
  induction fuel with
  | zero => intro s h inv r hr; exact absurd hr (by simp [linkLevel])
  | succ fuel ih =>
    intro s h inv r hr
    unfold linkLevel at hr
    dsimp only at hr
    split at hr
    · exact (Option.some_inj.mp hr) ▸ rfl
    · split at hr
      · exact absurd hr (by simp)
      · have := ih _ _ _ _ hr
        exact this

theorem linkLoop_height (key : Key) (xOff : Nat) :
    ∀ cnt i s h inv r, linkLoop key xOff i cnt s h inv = some r →
      r.1.height = s.height := by
  intro cnt
  induction cnt with
  | zero => intro i s h inv r hr; cases Option.some_inj.mp hr; rfl
  | succ cnt ih =>
    intro i s h inv r hr
    unfold linkLoop at hr
    split at hr
    · exact absurd hr (by simp)
    · rename_i s' h' inv' heq
      exact (ih _ _ _ _ _ hr).trans (linkLevel_height key xOff i _ s h inv _ heq)

theorem PutWithHint_height (s : skiplist) (draws : List Nat) (key : Key)
    (v : ValueStruct) (ho : Option hint) (s' : skiplist) (ho' : Option hint)
    (hres : PutWithHint s draws key v ho = some (s', ho')) :
    s'.height = max s.height (randomHeight draws) := by
  unfold PutWithHint at hres
  dsimp only at hres
  split at hres
  · exact absurd hres (by simp)
  · cases Option.some_inj.mp hres; rfl
  · split at hres
    · exact absurd hres (by simp)
    · rename_i s2 h2 inv heq
      cases Option.some_inj.mp hres
      exact linkLoop_height key _ _ _ _ _ _ _ heq

/-! #### The effect of a nil-hint put: overwrite case -/

theorem chainL_setValueAt (s : skiplist) (p : Nat) (v : ValueStruct) (lvl : Nat) :
    chainL { s with nodes := setValueAt s.nodes p v } lvl = chainL s lvl := by
  show chainAux { s with nodes := setValueAt s.nodes p v } lvl
      ((setValueAt s.nodes p v).length + 1)
      (nextOffS { s with nodes := setValueAt s.nodes p v } headOff lvl) = _
  rw [length_setValueAt, nextOffS_setValueAt]
  exact chainAux_congr (fun o => nextOffS_setValueAt s p o lvl v) _ _

theorem WF_setValueAt {s : skiplist} (hWF : WF s) (p : Nat) (v : ValueStruct) :
    WF { s with nodes := setValueAt s.nodes p v } := by
  obtain ⟨w1, w2, w3, w4, w5, w6, w7, w8⟩ := hWF
  have hch : ∀ lvl, chainL { s with nodes := setValueAt s.nodes p v } lvl = chainL s lvl :=
    fun lvl => chainL_setValueAt s p v lvl
  have hlen : (setValueAt s.nodes p v).length = s.nodes.length := length_setValueAt _ _ _
  refine ⟨?_, w2, w3, ?_, ?_, ?_, ?_, ?_⟩
  · show setValueAt s.nodes p v ≠ []
    intro hc
    exact w1 (List.length_eq_zero.mp (by rw [← hlen, hc, List.length_nil]))
  · intro level hl
    obtain ⟨c1, c2, c3⟩ := w4 level hl
    refine ⟨?_, ?_, ?_⟩
    · rw [hch, nextOffS_setValueAt]
      exact isChainFrom_congr c1 (fun o _ => nextOffS_setValueAt s p o level v)
    · rw [hch]
      intro o ho
      have := c2 o ho
      show 2 ≤ o ∧ o ≤ (setValueAt s.nodes p v).length
      rw [hlen]
      exact this
    · rw [hch]
      refine List.Pairwise.imp ?_ c3
      intro a b hab
      show (keyOf _ a).comp (keyOf _ b) = .lt
      rw [keyOf_setValueAt, keyOf_setValueAt]
      exact hab
  · intro level hl hH
    rw [hch]
    exact w5 level hl hH
  · intro level hl h0
    rw [hch, hch]
    exact w6 level hl h0
  · intro o ho h2o
    rw [hch]
    rw [show ({ s with nodes := setValueAt s.nodes p v } : skiplist).nodes.length
      = s.nodes.length from hlen] at ho
    exact w7 o ho h2o
  · intro o ho h1o
    rw [show ({ s with nodes := setValueAt s.nodes p v } : skiplist).nodes.length
      = s.nodes.length from hlen] at ho
    rw [towerLen_setValueAt]
    exact w8 o ho h1o

/-- When a compare-equal node is present, a nil-hint `PutWithHint` overwrites
that node's value word in place: no node is allocated and no tower changes. -/
theorem PutWithHint_overwrite {s : skiplist} (hWF : WF s) (draws : List Nat)
    (key : Key) (v : ValueStruct)
    (hex : ∃ off ∈ chainL s 0, key.comp (keyOf s off) = .eq) :
    ∃ off ∈ chainL s 0, key.comp (keyOf s off) = .eq ∧
      PutWithHint s draws key v none =
        some ({ height := max s.height (randomHeight draws),
                nodes := setValueAt s.nodes off v }, none) := by
  obtain ⟨off, hoffmem, hoffeq⟩ := hex
  have hH1 : 1 ≤ max s.height (randomHeight draws) :=
    le_trans hWF.height_pos (Nat.le_max_left _ _)
  have hH2 : max s.height (randomHeight draws) ≤ maxHeight :=
    Nat.max_le.mpr ⟨hWF.height_le, (randomHeight_bounds draws).2⟩
  have hWF' : WF { s with height := max s.height (randomHeight draws) } :=
    WF_set_height hWF hH1 hH2 (Nat.le_max_left _ _)
  have hoffmem' : off ∈ chainL { s with height := max s.height (randomHeight draws) } 0 := by
    rw [chainL_irrel_height]
    exact hoffmem
  have hoffeq' :
      key.comp (keyOf { s with height := max s.height (randomHeight draws) } off) = .eq := by
    rw [keyOf_irrel_height]
    exact hoffeq
  have hfl : freshHint.prev.length = maxHeight + 1 := by
    show (List.replicate (maxHeight + 1) 0).length = maxHeight + 1
    rw [List.length_replicate]
  have hfln : freshHint.next.length = maxHeight + 1 := by
    show (List.replicate (maxHeight + 1) 0).length = maxHeight + 1
    rw [List.length_replicate]
  obtain ⟨h2, hp2, hn2, hup2, hres⟩ :=
    spliceLoop_master hWF' key (max s.height (randomHeight draws))
      { freshHint with
        prev := freshHint.prev.set (max s.height (randomHeight draws)) headOff
        next := freshHint.next.set (max s.height (randomHeight draws)) 0
        height := max s.height (randomHeight draws)
        hitHeight := max s.height (randomHeight draws) }
      hH2
      (by rw [List.length_set]; exact hfl)
      (by rw [List.length_set]; exact hfln)
      (fun h0 => Or.inl (getD_set_self _ _ _ _ (by rw [hfl]; omega)))
  rcases hres with ⟨off2, lv, heqn, hlv, hoff2mem, hoff2eq⟩ | ⟨heqn, hnoeq, hsps⟩
  · have hoff2 : off2 = off := eq_node_unique hWF' hoff2mem hoffmem' hoff2eq hoffeq'
    subst hoff2
    refine ⟨off2, hoffmem, hoffeq, ?_⟩
    simp only [PutWithHint]
    rw [show (none : Option hint).getD freshHint = freshHint from rfl]
    rw [crh_fresh _ key (max s.height (randomHeight draws)) hH1]
    dsimp only
    rw [heqn]
    rfl
  · exact absurd hoffeq' (hnoeq hH1 off hoffmem')

/-! #### The effect of a nil-hint put: insert case -/

theorem keyOf_append_old (s : skiplist) (x : node) (o : Nat) (h : o ≤ s.nodes.length) :
    keyOf { s with nodes := s.nodes ++ x :: [] } o = keyOf s o := by
  unfold keyOf
  rw [nodeAt_append_old x h]

theorem valOf_append_old (s : skiplist) (x : node) (o : Nat) (h : o ≤ s.nodes.length) :
    valOf { s with nodes := s.nodes ++ x :: [] } o = valOf s o := by
  unfold valOf
  rw [nodeAt_append_old x h]

theorem towerLen_append_old (s : skiplist) (x : node) (o : Nat) (h : o ≤ s.nodes.length) :
    (nodeAt { s with nodes := s.nodes ++ x :: [] } o).tower.length
      = (nodeAt s o).tower.length := by
  rw [nodeAt_append_old x h]

theorem nextOffS_append_old (s : skiplist) (x : node) (o lvl : Nat) (h : o ≤ s.nodes.length) :
    nextOffS { s with nodes := s.nodes ++ x :: [] } o lvl = nextOffS s o lvl := by
  unfold nextOffS
  rw [nodeAt_append_old x h]

theorem keyOf_append_new (s : skiplist) (x : node) :
    keyOf { s with nodes := s.nodes ++ x :: [] } (s.nodes.length + 1) = x.key := by
  unfold keyOf
  rw [nodeAt_append_new]

theorem valOf_append_new (s : skiplist) (x : node) :
    valOf { s with nodes := s.nodes ++ x :: [] } (s.nodes.length + 1) = x.value := by
  unfold valOf
  rw [nodeAt_append_new]

theorem towerLen_append_new (s : skiplist) (x : node) :
    (nodeAt { s with nodes := s.nodes ++ x :: [] } (s.nodes.length + 1)).tower.length
      = x.tower.length := by
  rw [nodeAt_append_new]

theorem nextOffS_append_new (s : skiplist) (x : node) (lvl : Nat) :
    nextOffS { s with nodes := s.nodes ++ x :: [] } (s.nodes.length + 1) lvl
      = x.tower.getD lvl 0 := by
  unfold nextOffS
  rw [nodeAt_append_new]

theorem length_append_one (s : skiplist) (x : node) :
    (s.nodes ++ x :: []).length = s.nodes.length + 1 := by
  rw [List.length_append, List.length_cons, List.length_nil]

theorem chainL_append {s : skiplist} (hWF : WF s) (x : node) {lvl : Nat}
    (hlvl : lvl < maxHeight) :
    chainL { s with nodes := s.nodes ++ x :: [] } lvl = chainL s lvl := by
  obtain ⟨hic, hval, _⟩ := WF.chainOK hWF lvl hlvl
  have hlen0 : 1 ≤ s.nodes.length := by
    have := WF.nonnil hWF
    cases hn : s.nodes with
    | nil => exact absurd hn this
    | cons a t => simp
  have hic' : IsChainFrom { s with nodes := s.nodes ++ x :: [] } lvl
      (nextOffS { s with nodes := s.nodes ++ x :: [] } headOff lvl) (chainL s lvl) := by
    rw [nextOffS_append_old s x headOff lvl hlen0]
    exact isChainFrom_congr hic
      (fun o ho => nextOffS_append_old s x o lvl (hval o ho).2)
  have hlen := chainL_length_le hWF hlvl
  show chainAux { s with nodes := s.nodes ++ x :: [] } lvl
      ((s.nodes ++ x :: []).length + 1)
      (nextOffS { s with nodes := s.nodes ++ x :: [] } headOff lvl) = chainL s lvl
  rw [length_append_one]
  exact chainAux_of_isChainFrom _ lvl _ _ _ hic' (by omega)

/-- A `linkLevel` call whose CAS succeeds immediately writes `x.tower[i]`
and the predecessor slot, and returns. -/
theorem linkLevel_cas_ok (key : Key) (xOff i fuel : Nat) (s : skiplist) (h : hint)
    (inv : Bool)
    (hcas : nextOffS { s with nodes := setTower s.nodes xOff i (h.next.getD i 0) }
      (h.prev.getD i 0) i = h.next.getD i 0) :
    linkLevel key xOff i (fuel + 1) s h inv =
      some
        ({ s with
            nodes := setTower (setTower s.nodes xOff i (h.next.getD i 0))
              (h.prev.getD i 0) i xOff },
          h, inv) := by
  unfold linkLevel
  dsimp only
  rw [if_pos hcas]

theorem keyOf_setTower2 (s : skiplist) (p1 i1 t1 p2 i2 t2 o : Nat) :
    keyOf { s with nodes := setTower (setTower s.nodes p1 i1 t1) p2 i2 t2 } o
      = keyOf s o :=
  (keyOf_setTower { s with nodes := setTower s.nodes p1 i1 t1 } p2 i2 t2 o).trans
    (keyOf_setTower s p1 i1 t1 o)

theorem valOf_setTower2 (s : skiplist) (p1 i1 t1 p2 i2 t2 o : Nat) :
    valOf { s with nodes := setTower (setTower s.nodes p1 i1 t1) p2 i2 t2 } o
      = valOf s o :=
  (valOf_setTower { s with nodes := setTower s.nodes p1 i1 t1 } p2 i2 t2 o).trans
    (valOf_setTower s p1 i1 t1 o)

theorem towerLen_setTower2 (s : skiplist) (p1 i1 t1 p2 i2 t2 o : Nat) :
    (nodeAt { s with nodes := setTower (setTower s.nodes p1 i1 t1) p2 i2 t2 } o).tower.length
      = (nodeAt s o).tower.length :=
  (towerLen_setTower { s with nodes := setTower s.nodes p1 i1 t1 } p2 i2 t2 o).trans
    (towerLen_setTower s p1 i1 t1 o)

theorem nextOffS_setTower2_ne (s : skiplist) (p1 i1 t1 p2 i2 t2 o lvl : Nat)
    (h1 : p2 ≠ o) (h2 : p1 ≠ o) :
    nextOffS { s with nodes := setTower (setTower s.nodes p1 i1 t1) p2 i2 t2 } o lvl
      = nextOffS s o lvl :=
  (nextOffS_setTower_ne { s with nodes := setTower s.nodes p1 i1 t1 } p2 i2 t2 o lvl h1).trans
    (nextOffS_setTower_ne s p1 i1 t1 o lvl h2)

theorem nextOffS_setTower2_ne_lvl (s : skiplist) (p1 i1 t1 p2 i2 t2 o lvl : Nat)
    (h1 : lvl ≠ i2) (h2 : lvl ≠ i1) :
    nextOffS { s with nodes := setTower (setTower s.nodes p1 i1 t1) p2 i2 t2 } o lvl
      = nextOffS s o lvl :=
  (nextOffS_setTower_ne_lvl { s with nodes := setTower s.nodes p1 i1 t1 } p2 i2 t2 o lvl h1).trans
    (nextOffS_setTower_ne_lvl s p1 i1 t1 o lvl h2)

theorem nextOffS_setTower2_self_outer (s : skiplist) (p1 i t1 p2 t2 : Nat)
    (h1 : 1 ≤ p2) (h2 : p2 ≤ s.nodes.length) (h3 : i < (nodeAt s p2).tower.length) :
    nextOffS { s with nodes := setTower (setTower s.nodes p1 i t1) p2 i t2 } p2 i = t2 := by
  have hb2 : p2 ≤ ({ s with nodes := setTower s.nodes p1 i t1 } : skiplist).nodes.length := by
    show p2 ≤ (setTower s.nodes p1 i t1).length
    rw [length_setTower]
    exact h2
  have hb3 : i < (nodeAt { s with nodes := setTower s.nodes p1 i t1 } p2).tower.length := by
    rw [towerLen_setTower]
    exact h3
  exact nextOffS_setTower_self { s with nodes := setTower s.nodes p1 i t1 } p2 i t2 h1 hb2 hb3

theorem nextOffS_setTower2_self_inner (s : skiplist) (p1 i t1 p2 t2 : Nat)
    (hne : p2 ≠ p1)
    (h1 : 1 ≤ p1) (h2 : p1 ≤ s.nodes.length) (h3 : i < (nodeAt s p1).tower.length) :
    nextOffS { s with nodes := setTower (setTower s.nodes p1 i t1) p2 i t2 } p1 i = t1 :=
  (nextOffS_setTower_ne { s with nodes := setTower s.nodes p1 i t1 } p2 i t2 p1 i hne).trans
    (nextOffS_setTower_self s p1 i t1 h1 h2 h3)

/-- The linking loop after a no-match descent: each level's CAS succeeds at
once, linking the new node into one tower slot per level and touching no
other pointer, key, value, or tower size. -/
theorem linkLoop_master (key : Key) (s1 : skiplist) (hb : hint) (H ht len : Nat)
    (hlen0 : 1 ≤ len)
    (hhtm : ht ≤ maxHeight)
    (htow : ∀ o, o ≤ len + 1 → 1 ≤ o → (nodeAt s1 o).tower.length = maxHeight)
    (hbv : ∀ lvl, lvl < ht → hb.prev.getD lvl 0 = headOff ∨
      (2 ≤ hb.prev.getD lvl 0 ∧ hb.prev.getD lvl 0 ≤ len))
    (hbn : ∀ lvl, lvl < ht →
      nextOffS s1 (hb.prev.getD lvl 0) lvl = hb.next.getD lvl 0) :
    ∀ (cnt j : Nat) (sj : skiplist),
      j + cnt = ht →
      sj.height = H →
      sj.nodes.length = len + 1 →
      (∀ o, keyOf sj o = keyOf s1 o) →
      (∀ o, valOf sj o = valOf s1 o) →
      (∀ o, (nodeAt sj o).tower.length = (nodeAt s1 o).tower.length) →
      (∀ o lvl, o ≠ len + 1 → ¬(lvl < j ∧ o = hb.prev.getD lvl 0) →
        nextOffS sj o lvl = nextOffS s1 o lvl) →
      (∀ lvl, lvl < j → nextOffS sj (hb.prev.getD lvl 0) lvl = len + 1) →
      (∀ lvl, lvl < j → nextOffS sj (len + 1) lvl = hb.next.getD lvl 0) →
      (∀ lvl, j ≤ lvl → nextOffS sj (len + 1) lvl = 0) →
      ∃ sfin, linkLoop key (len + 1) j cnt sj hb false = some (sfin, hb, false) ∧
        sfin.height = H ∧ sfin.nodes.length = len + 1 ∧
        (∀ o, keyOf sfin o = keyOf s1 o) ∧
        (∀ o, valOf sfin o = valOf s1 o) ∧
        (∀ o, (nodeAt sfin o).tower.length = (nodeAt s1 o).tower.length) ∧
        (∀ o lvl, o ≠ len + 1 → ¬(lvl < ht ∧ o = hb.prev.getD lvl 0) →
          nextOffS sfin o lvl = nextOffS s1 o lvl) ∧
        (∀ lvl, lvl < ht → nextOffS sfin (hb.prev.getD lvl 0) lvl = len + 1) ∧
        (∀ lvl, lvl < ht → nextOffS sfin (len + 1) lvl = hb.next.getD lvl 0) ∧
        (∀ lvl, ht ≤ lvl → nextOffS sfin (len + 1) lvl = 0) := by
  intro cnt
  induction cnt with
  | zero =>
    intro j sj hjcnt hh hl hk hv hd hE hF hG hZ
    have hjht : j = ht := by omega
    subst hjht
    exact ⟨sj, rfl, hh, hl, hk, hv, hd, hE, hF, hG, hZ⟩
  | succ cnt ih =>
    intro j sj hjcnt hh hl hk hv hd hE hF hG hZ
    have hjht : j < ht := by omega
    have hbvj := hbv j hjht
    have hpx : hb.prev.getD j 0 ≠ len + 1 := by
      rcases hbvj with h | ⟨h1, h2⟩
      · rw [h]; show headOff ≠ len + 1; unfold headOff; omega
      · omega
    have hp1 : 1 ≤ hb.prev.getD j 0 := by
      rcases hbvj with h | ⟨h1, h2⟩
      · rw [h]; show 1 ≤ headOff; unfold headOff; omega
      · omega
    have hp2 : hb.prev.getD j 0 ≤ len + 1 := by
      rcases hbvj with h | ⟨h1, h2⟩
      · rw [h]; show headOff ≤ len + 1; unfold headOff; omega
      · omega
    have hcas : nextOffS
        { sj with nodes := setTower sj.nodes (len + 1) j (hb.next.getD j 0) }
        (hb.prev.getD j 0) j = hb.next.getD j 0 := by
      rw [nextOffS_setTower_ne sj (len + 1) j (hb.next.getD j 0) (hb.prev.getD j 0) j
        (fun hc => hpx hc.symm)]
      rw [hE (hb.prev.getD j 0) j hpx (fun hc => absurd hc.1 (lt_irrefl j))]
      exact hbn j hjht
    have hlev := linkLevel_cas_ok key (len + 1) j (sj.nodes.length + 1) sj hb false hcas
    have hlev2 : linkLevel key (len + 1) j (sj.nodes.length + 2) sj hb false
        = some
          ({ sj with
              nodes := setTower (setTower sj.nodes (len + 1) j (hb.next.getD j 0))
                (hb.prev.getD j 0) j (len + 1) },
            hb, false) := hlev
    have hdsj : ∀ o, o ≤ len + 1 → 1 ≤ o → (nodeAt sj o).tower.length = maxHeight :=
      fun o h1 h2 => (hd o).trans (htow o h1 h2)
    have hlen2 : (setTower (setTower sj.nodes (len + 1) j (hb.next.getD j 0))
        (hb.prev.getD j 0) j (len + 1)).length = len + 1 := by
      rw [length_setTower, length_setTower]
      exact hl
    obtain ⟨sfin, hrun, hua⟩ :=
      ih (j + 1)
        { sj with nodes := setTower (setTower sj.nodes (len + 1) j (hb.next.getD j 0)) (hb.prev.getD j 0) j (len + 1) }
        (by omega)
        hh
        (by exact hlen2)
        (fun o => (keyOf_setTower2 sj (len + 1) j (hb.next.getD j 0)
          (hb.prev.getD j 0) j (len + 1) o).trans (hk o))
        (fun o => (valOf_setTower2 sj (len + 1) j (hb.next.getD j 0)
          (hb.prev.getD j 0) j (len + 1) o).trans (hv o))
        (fun o => (towerLen_setTower2 sj (len + 1) j (hb.next.getD j 0)
          (hb.prev.getD j 0) j (len + 1) o).trans (hd o))
        (by
          intro o lvl ho hcond
          by_cases hlj : lvl = j
          · rw [hlj]
            have hop : o ≠ hb.prev.getD j 0 :=
              fun hc => hcond ⟨by omega, by rw [hlj]; exact hc⟩
            rw [nextOffS_setTower2_ne sj (len + 1) j (hb.next.getD j 0)
              (hb.prev.getD j 0) j (len + 1) o j
              (fun hc => hop hc.symm) (fun hc => ho hc.symm)]
            exact hE o j ho (fun hc => absurd hc.1 (lt_irrefl j))
          · rw [nextOffS_setTower2_ne_lvl sj (len + 1) j (hb.next.getD j 0)
              (hb.prev.getD j 0) j (len + 1) o lvl hlj hlj]
            exact hE o lvl ho (fun hc => hcond ⟨Nat.lt_succ_of_lt hc.1, hc.2⟩))
        (by
          intro lvl hlvl
          by_cases hlj : lvl = j
          · rw [hlj]
            exact nextOffS_setTower2_self_outer sj (len + 1) j (hb.next.getD j 0)
              (hb.prev.getD j 0) (len + 1) hp1 (by rw [hl]; exact hp2)
              (by rw [hdsj (hb.prev.getD j 0) hp2 hp1]; omega)
          · rw [nextOffS_setTower2_ne_lvl sj (len + 1) j (hb.next.getD j 0)
              (hb.prev.getD j 0) j (len + 1) (hb.prev.getD lvl 0) lvl hlj hlj]
            exact hF lvl (by omega))
        (by
          intro lvl hlvl
          by_cases hlj : lvl = j
          · rw [hlj]
            exact nextOffS_setTower2_self_inner sj (len + 1) j (hb.next.getD j 0)
              (hb.prev.getD j 0) (len + 1) hpx (by omega) hl.ge
              (by rw [hdsj (len + 1) (le_refl _) (by omega)]; omega)
          · rw [nextOffS_setTower2_ne_lvl sj (len + 1) j (hb.next.getD j 0)
              (hb.prev.getD j 0) j (len + 1) (len + 1) lvl hlj hlj]
            exact hG lvl (by omega))
        (by
          intro lvl hlvl
          have hlj : lvl ≠ j := by omega
          rw [nextOffS_setTower2_ne_lvl sj (len + 1) j (hb.next.getD j 0)
            (hb.prev.getD j 0) j (len + 1) (len + 1) lvl hlj hlj]
          exact hZ lvl (by omega))
    refine ⟨sfin, ?_, hua⟩
    unfold linkLoop
    rw [hlev2]
    exact hrun

theorem valOf_irrel_height (s : skiplist) (H o : Nat) :
    valOf { s with height := H } o = valOf s o := by
  match o with
  | 0 => rfl
  | o + 1 => rfl

theorem towerLen_irrel_height (s : skiplist) (H o : Nat) :
    (nodeAt { s with height := H } o).tower.length = (nodeAt s o).tower.length := by
  match o with
  | 0 => rfl
  | o + 1 => rfl

theorem spliceAt_irrel_height {s : skiplist} {H : Nat} {key : Key} {i b a : Nat}
    (h : SpliceAt { s with height := H } key i b a) : SpliceAt s key i b a := by
  obtain ⟨P, S, h1, h2, h3, h4, h5, h6⟩ := h
  refine ⟨P, S, ?_, ?_, ?_, h4, h5, ?_⟩
  · rw [← chainL_irrel_height s H i]; exact h1
  · intro o ho; rw [← keyOf_irrel_height s H o]; exact h2 o ho
  · intro o ho; rw [← keyOf_irrel_height s H o]; exact h3 o ho
  · rw [← nextOffS_irrel_height s H b i]; exact h6

/-- A nil-hint `PutWithHint` on a list without a compare-equal node allocates
one node at the end of the arena, links it at every sampled level through the
descent's splice, and leaves every other node and pointer untouched. -/
theorem PutWithHint_insert_run {s : skiplist} (hWF : WF s) (draws : List Nat)
    (key : Key) (v : ValueStruct)
    (hnoeq : ∀ o ∈ chainL s 0, key.comp (keyOf s o) ≠ .eq) :
    ∃ (sfin : skiplist) (h2 : hint), PutWithHint s draws key v none = some (sfin, none) ∧
      sfin.height = max s.height (randomHeight draws) ∧
      sfin.nodes.length = s.nodes.length + 1 ∧
      (∀ o, o ≤ s.nodes.length → keyOf sfin o = keyOf s o ∧ valOf sfin o = valOf s o) ∧
      keyOf sfin (s.nodes.length + 1) = key ∧
      valOf sfin (s.nodes.length + 1) = storedVal v ∧
      (∀ o, o ≤ s.nodes.length + 1 → 1 ≤ o → (nodeAt sfin o).tower.length = maxHeight) ∧
      (∀ o lvl, o ≤ s.nodes.length →
        ¬(lvl < randomHeight draws ∧ o = h2.prev.getD lvl 0) →
        nextOffS sfin o lvl = nextOffS s o lvl) ∧
      (∀ lvl, lvl < randomHeight draws →
        nextOffS sfin (h2.prev.getD lvl 0) lvl = s.nodes.length + 1) ∧
      (∀ lvl, lvl < randomHeight draws →
        nextOffS sfin (s.nodes.length + 1) lvl = h2.next.getD lvl 0) ∧
      (∀ lvl, randomHeight draws ≤ lvl → nextOffS sfin (s.nodes.length + 1) lvl = 0) ∧
      (∀ lvl, lvl < randomHeight draws →
        SpliceAt s key lvl (h2.prev.getD lvl 0) (h2.next.getD lvl 0)) := by
  have hlen0 : 1 ≤ s.nodes.length := List.length_pos.mpr (WF.nonnil hWF)
  have hht1 : 1 ≤ randomHeight draws := (randomHeight_bounds draws).1
  have hhtm : randomHeight draws ≤ maxHeight := (randomHeight_bounds draws).2
  have hH1 : 1 ≤ max s.height (randomHeight draws) :=
    le_trans hWF.height_pos (Nat.le_max_left _ _)
  have hH2 : max s.height (randomHeight draws) ≤ maxHeight :=
    Nat.max_le.mpr ⟨hWF.height_le, hhtm⟩
  have hWF' : WF { s with height := max s.height (randomHeight draws) } :=
    WF_set_height hWF hH1 hH2 (Nat.le_max_left _ _)
  have hfl : freshHint.prev.length = maxHeight + 1 := by
    show (List.replicate (maxHeight + 1) 0).length = maxHeight + 1
    rw [List.length_replicate]
  have hfln : freshHint.next.length = maxHeight + 1 := by
    show (List.replicate (maxHeight + 1) 0).length = maxHeight + 1
    rw [List.length_replicate]
  obtain ⟨h2, hp2, hn2, hup2, hres⟩ :=
    spliceLoop_master hWF' key (max s.height (randomHeight draws))
      { freshHint with
        prev := freshHint.prev.set (max s.height (randomHeight draws)) headOff
        next := freshHint.next.set (max s.height (randomHeight draws)) 0
        height := max s.height (randomHeight draws)
        hitHeight := max s.height (randomHeight draws) }
      hH2
      (by rw [List.length_set]; exact hfl)
      (by rw [List.length_set]; exact hfln)
      (fun h0 => Or.inl (getD_set_self _ _ _ _ (by rw [hfl]; omega)))
  rcases hres with ⟨off, lv, heqn, hlv, hoffmem, hoffeq⟩ | ⟨heqn, hnoeq2, hsps⟩
  · rw [chainL_irrel_height] at hoffmem
    rw [keyOf_irrel_height] at hoffeq
    exact absurd hoffeq (hnoeq off hoffmem)
  · have hspsS : ∀ lvl, lvl < randomHeight draws →
        SpliceAt s key lvl (h2.prev.getD lvl 0) (h2.next.getD lvl 0) := by
      intro lvl hlvl
      exact spliceAt_irrel_height (hsps lvl (lt_of_lt_of_le hlvl (Nat.le_max_right _ _)))
    have hbv : ∀ lvl, lvl < randomHeight draws →
        h2.prev.getD lvl 0 = headOff ∨
          (2 ≤ h2.prev.getD lvl 0 ∧ h2.prev.getD lvl 0 ≤ s.nodes.length) := by
      intro lvl hlvl
      obtain ⟨P, S, hsplit, hP, hS, hbdef, hadef, hnx⟩ := hspsS lvl hlvl
      rcases getLastD_mem_or P headOff with h | h
      · exact Or.inl (by rw [hbdef, h])
      · have hmem : h2.prev.getD lvl 0 ∈ chainL s lvl := by
          rw [hsplit, hbdef]
          exact List.mem_append_left _ h
        exact Or.inr ((WF.chainOK hWF lvl (by omega)).2.1 _ hmem)
    have hbnS : ∀ lvl, lvl < randomHeight draws →
        nextOffS s (h2.prev.getD lvl 0) lvl = h2.next.getD lvl 0 := by
      intro lvl hlvl
      obtain ⟨P, S, hsplit, hP, hS, hbdef, hadef, hnx⟩ := hspsS lvl hlvl
      exact hnx
    have htow1 : ∀ o, o ≤ s.nodes.length + 1 → 1 ≤ o →
        (nodeAt { s with height := max s.height (randomHeight draws), nodes := s.nodes ++ { value := storedVal v, key := key, height := randomHeight draws, tower := List.replicate maxHeight 0 } :: [] } o).tower.length = maxHeight := by
      intro o h1 h2o
      rcases Nat.lt_or_ge o (s.nodes.length + 1) with hlt | hge
      · have hle : o ≤ s.nodes.length := by omega
        have ht1 := towerLen_append_old { s with height := max s.height (randomHeight draws) } { value := storedVal v, key := key, height := randomHeight draws, tower := List.replicate maxHeight 0 } o hle
        have ht15 := towerLen_irrel_height s (max s.height (randomHeight draws)) o
        have ht2 := WF.tower_len hWF o (by omega) h2o
        exact ht1.trans (ht15.trans ht2)
      · have ho1 : o = s.nodes.length + 1 := by omega
        subst ho1
        have ht1 := towerLen_append_new { s with height := max s.height (randomHeight draws) } { value := storedVal v, key := key, height := randomHeight draws, tower := List.replicate maxHeight 0 }
        refine ht1.trans ?_
        show (List.replicate maxHeight 0).length = maxHeight
        rw [List.length_replicate]
    have hbn1 : ∀ lvl, lvl < randomHeight draws →
        nextOffS { s with height := max s.height (randomHeight draws), nodes := s.nodes ++ { value := storedVal v, key := key, height := randomHeight draws, tower := List.replicate maxHeight 0 } :: [] } (h2.prev.getD lvl 0) lvl = h2.next.getD lvl 0 := by
      intro lvl hlvl
      have hble : h2.prev.getD lvl 0 ≤ s.nodes.length := by
        rcases hbv lvl hlvl with h | h
        · rw [h]; show headOff ≤ s.nodes.length; unfold headOff; omega
        · omega
      have ha := nextOffS_append_old { s with height := max s.height (randomHeight draws) } { value := storedVal v, key := key, height := randomHeight draws, tower := List.replicate maxHeight 0 } (h2.prev.getD lvl 0) lvl hble
      exact ha.trans ((nextOffS_irrel_height s (max s.height (randomHeight draws)) (h2.prev.getD lvl 0) lvl).trans (hbnS lvl hlvl))
    have hlen1 : ({ s with height := max s.height (randomHeight draws), nodes := s.nodes ++ { value := storedVal v, key := key, height := randomHeight draws, tower := List.replicate maxHeight 0 } :: [] } : skiplist).nodes.length = s.nodes.length + 1 :=
      length_append_one { s with height := max s.height (randomHeight draws) } { value := storedVal v, key := key, height := randomHeight draws, tower := List.replicate maxHeight 0 }
    have hZ1 : ∀ lvl, (0 : Nat) ≤ lvl →
        nextOffS { s with height := max s.height (randomHeight draws), nodes := s.nodes ++ { value := storedVal v, key := key, height := randomHeight draws, tower := List.replicate maxHeight 0 } :: [] } (s.nodes.length + 1) lvl = 0 := by
      intro lvl _
      have ha := nextOffS_append_new { s with height := max s.height (randomHeight draws) } { value := storedVal v, key := key, height := randomHeight draws, tower := List.replicate maxHeight 0 } lvl
      refine ha.trans ?_
      show (List.replicate maxHeight 0).getD lvl 0 = 0
      exact getD_replicate maxHeight lvl
    obtain ⟨sfin, hloopeq, hfinH, hfinlen, hfink, hfinv, hfind, hfinE, hfinF, hfinG, hfinZ⟩ :=
      linkLoop_master key
        { s with height := max s.height (randomHeight draws), nodes := s.nodes ++ { value := storedVal v, key := key, height := randomHeight draws, tower := List.replicate maxHeight 0 } :: [] }
        h2 (max s.height (randomHeight draws)) (randomHeight draws) s.nodes.length
        hlen0 hhtm htow1 hbv hbn1
        (randomHeight draws) 0
        { s with height := max s.height (randomHeight draws), nodes := s.nodes ++ { value := storedVal v, key := key, height := randomHeight draws, tower := List.replicate maxHeight 0 } :: [] }
        (by omega) rfl hlen1 (fun o => rfl) (fun o => rfl) (fun o => rfl)
        (fun o lvl ho hcond => rfl)
        (fun lvl hlvl => absurd hlvl (Nat.not_lt_zero lvl))
        (fun lvl hlvl => absurd hlvl (Nat.not_lt_zero lvl))
        hZ1
    have hES : ∀ o lvl, o ≤ s.nodes.length →
        ¬(lvl < randomHeight draws ∧ o = h2.prev.getD lvl 0) →
        nextOffS sfin o lvl = nextOffS s o lvl := by
      intro o lvl ho hcond
      have h1 := hfinE o lvl (by omega) hcond
      have h2a := nextOffS_append_old { s with height := max s.height (randomHeight draws) } { value := storedVal v, key := key, height := randomHeight draws, tower := List.replicate maxHeight 0 } o lvl ho
      exact h1.trans (h2a.trans (nextOffS_irrel_height s (max s.height (randomHeight draws)) o lvl))
    refine ⟨sfin, h2, ?_, hfinH, hfinlen, ?_, ?_, ?_,
      (fun o h1 h2o => (hfind o).trans (htow1 o h1 h2o)),
      hES, hfinF, hfinG, hfinZ, hspsS⟩
    · simp only [PutWithHint]
      rw [show (none : Option hint).getD freshHint = freshHint from rfl]
      rw [crh_fresh { s with height := max s.height (randomHeight draws) } key
        (max s.height (randomHeight draws)) hH1]
      dsimp only
      rw [heqn]
      dsimp only
      rw [hloopeq]
      rfl
    · intro o ho
      constructor
      · exact (hfink o).trans ((keyOf_append_old { s with height := max s.height (randomHeight draws) } { value := storedVal v, key := key, height := randomHeight draws, tower := List.replicate maxHeight 0 } o ho).trans (keyOf_irrel_height s (max s.height (randomHeight draws)) o))
      · exact (hfinv o).trans ((valOf_append_old { s with height := max s.height (randomHeight draws) } { value := storedVal v, key := key, height := randomHeight draws, tower := List.replicate maxHeight 0 } o ho).trans (valOf_irrel_height s (max s.height (randomHeight draws)) o))
    · exact (hfink (s.nodes.length + 1)).trans (keyOf_append_new { s with height := max s.height (randomHeight draws) } { value := storedVal v, key := key, height := randomHeight draws, tower := List.replicate maxHeight 0 })
    · exact (hfinv (s.nodes.length + 1)).trans (valOf_append_new { s with height := max s.height (randomHeight draws) } { value := storedVal v, key := key, height := randomHeight draws, tower := List.replicate maxHeight 0 })

theorem nodeAt_out {s : skiplist} {o : Nat} (h : s.nodes.length < o) :
    nodeAt s o = dummyNode := by
  match o, h with
  | o + 1, h =>
    show (s.nodes.get? o).getD dummyNode = dummyNode
    rw [List.get?_eq_none.mpr (by omega)]
    rfl

/-- A nil-hint `PutWithHint` on a list without a compare-equal node returns a
well-formed list holding the fresh node on the base chain, with the new key
the unique compare-equal entry and all previous keys and values intact. -/
theorem PutWithHint_insert {s : skiplist} (hWF : WF s) (draws : List Nat)
    (key : Key) (v : ValueStruct)
    (hnoeq : ∀ o ∈ chainL s 0, key.comp (keyOf s o) ≠ .eq) :
    ∃ sfin : skiplist, PutWithHint s draws key v none = some (sfin, none) ∧
      WF sfin ∧
      sfin.nodes.length = s.nodes.length + 1 ∧
      keyOf sfin (s.nodes.length + 1) = key ∧
      valOf sfin (s.nodes.length + 1) = storedVal v ∧
      (s.nodes.length + 1) ∈ chainL sfin 0 ∧
      (∀ o ∈ chainL sfin 0, o ≠ s.nodes.length + 1 → key.comp (keyOf sfin o) ≠ .eq) ∧
      (∀ o, o ≤ s.nodes.length → keyOf sfin o = keyOf s o ∧ valOf sfin o = valOf s o) := by
  obtain ⟨sfin, h2, hrun, hfinH, hfinlen, hpres, hkeyx, hvalx, htows, hES, hF, hG, hZ, hsps⟩ :=
    PutWithHint_insert_run hWF draws key v hnoeq
  have hh1 : headOff = 1 := rfl
  have hlen0 : 1 ≤ s.nodes.length := List.length_pos.mpr (WF.nonnil hWF)
  have hht1 : 1 ≤ randomHeight draws := (randomHeight_bounds draws).1
  have hhtm : randomHeight draws ≤ maxHeight := (randomHeight_bounds draws).2
  have hH1 : 1 ≤ max s.height (randomHeight draws) :=
    le_trans hWF.height_pos (Nat.le_max_left _ _)
  have hH2 : max s.height (randomHeight draws) ≤ maxHeight :=
    Nat.max_le.mpr ⟨hWF.height_le, hhtm⟩
  have hml : s.height ≤ max s.height (randomHeight draws) := Nat.le_max_left _ _
  have hmr : randomHeight draws ≤ max s.height (randomHeight draws) := Nat.le_max_right _ _
  have hkfin : ∀ o, o ≤ s.nodes.length → keyOf sfin o = keyOf s o :=
    fun o h => (hpres o h).1
  have hper : ∀ lv, lv < maxHeight →
      (IsChainFrom sfin lv (nextOffS sfin headOff lv) (chainL sfin lv) ∧
        (∀ o ∈ chainL sfin lv, 2 ≤ o ∧ o ≤ sfin.nodes.length) ∧
        (chainL sfin lv).Pairwise (offLt sfin)) ∧
      (lv < randomHeight draws →
        chainL sfin lv =
          (chainL s lv).filter (fun o => key.comp (keyOf s o) == Ordering.gt)
            ++ (s.nodes.length + 1) ::
              (chainL s lv).filter (fun o => key.comp (keyOf s o) != Ordering.gt) ∧
        (chainL s lv).filter (fun o => key.comp (keyOf s o) == Ordering.gt)
            ++ (chainL s lv).filter (fun o => key.comp (keyOf s o) != Ordering.gt)
          = chainL s lv) ∧
      (randomHeight draws ≤ lv → chainL sfin lv = chainL s lv) := by
    intro lv hlv
    obtain ⟨hic, hval, hpw⟩ := WF.chainOK hWF lv hlv
    by_cases hsplc : lv < randomHeight draws
    · obtain ⟨P, S, hsplit, hP, hS, hbdef, hadef, hnx⟩ := hsps lv hsplc
      have hvalP : ∀ o ∈ P, 2 ≤ o ∧ o ≤ s.nodes.length :=
        fun o ho => hval o (by rw [hsplit]; exact List.mem_append_left _ ho)
      have hvalS : ∀ o ∈ S, 2 ≤ o ∧ o ≤ s.nodes.length :=
        fun o ho => hval o (by rw [hsplit]; exact List.mem_append_right _ ho)
      have hpwPS : (P ++ S).Pairwise (offLt s) := by rw [← hsplit]; exact hpw
      obtain ⟨hpwP, hpwS, hcross⟩ := List.pairwise_append.mp hpwPS
      have hnd : (P ++ S).Nodup := by
        have h := nodup_of_pairwise_offLt hpw
        rw [hsplit] at h
        exact h
      have hkeepS : ∀ o, o ≠ h2.prev.getD lv 0 → o ≠ s.nodes.length + 1 →
          nextOffS sfin o lv = nextOffS s o lv := by
        intro o hob hox
        rcases Nat.lt_or_ge o (s.nodes.length + 1) with hlt | hge
        · exact hES o lv (by omega) (fun hc => hob hc.2)
        · have e1 : nextOffS sfin o lv = dummyNode.tower.getD lv 0 := by
            unfold nextOffS
            rw [nodeAt_out (by omega)]
          have e2 : nextOffS s o lv = dummyNode.tower.getD lv 0 := by
            unfold nextOffS
            rw [nodeAt_out (by omega)]
          rw [e1, e2]
      have hbnotS : h2.prev.getD lv 0 ∉ S := by
        intro hc
        rcases getLastD_mem_or P headOff with hh | hh
        · have h2c := (hvalS _ hc).1
          rw [hbdef, hh] at h2c
          omega
        · have hdis := (List.nodup_append.mp hnd).2.2
          have hbP : h2.prev.getD lv 0 ∈ P := by
            rw [hbdef]
            exact hh
          exact hdis hbP hc
      have hchainfin : IsChainFrom sfin lv (nextOffS sfin headOff lv)
          (P ++ (s.nodes.length + 1) :: S) := by
        have hics : IsChainFrom s lv (nextOffS s headOff lv) (P ++ S) := by
          rw [← hsplit]
          exact hic
        refine isChainFrom_relink (hG lv hsplc) (by omega) hkeepS (hF lv hsplc) hnx
          P S headOff hics hbdef hbnotS
          (fun hc => by have := (hvalP _ hc).2; omega)
          (fun hc => by have := (hvalS _ hc).2; omega)
          (fun hc => by have := (hvalP _ hc).1; omega)
          (by omega)
          hnd
      have hcheq : chainL sfin lv = P ++ (s.nodes.length + 1) :: S := by
        show chainAux sfin lv (sfin.nodes.length + 1) (nextOffS sfin headOff lv) = _
        refine chainAux_of_isChainFrom sfin lv _ _ _ hchainfin ?_
        have hlenchain := chainL_length_le hWF hlv
        rw [hsplit, List.length_append] at hlenchain
        rw [hfinlen, List.length_append, List.length_cons]
        omega
      have hPfilt : (chainL s lv).filter (fun o => key.comp (keyOf s o) == Ordering.gt) = P := by
        rw [hsplit]
        exact filter_append_of_pos_neg (fun o ho => by rw [hP o ho]; rfl)
          (fun o ho => (ordering_beq_false_iff _ _).mpr (hS o ho))
      have hSfilt : (chainL s lv).filter (fun o => key.comp (keyOf s o) != Ordering.gt) = S := by
        rw [hsplit]
        exact filter_append_of_neg_pos (fun o ho => (ordering_bne_false_iff _ _).mpr (hP o ho))
          (fun o ho => (ordering_bne_iff _ _).mpr (hS o ho))
      have hkeq : ∀ o ∈ P ++ S, keyOf sfin o = keyOf s o := by
        intro o ho
        rcases List.mem_append.mp ho with h | h
        · exact hkfin o (hvalP o h).2
        · exact hkfin o (hvalS o h).2
      refine ⟨⟨?_, ?_, ?_⟩, fun _ => ⟨?_, ?_⟩, fun hge => absurd hsplc (by omega)⟩
      · rw [hcheq]
        exact hchainfin
      · rw [hcheq, hfinlen]
        intro o ho
        rcases List.mem_append.mp ho with h | h
        · obtain ⟨ha, hb⟩ := hvalP o h
          exact ⟨ha, by omega⟩
        · rcases List.mem_cons.mp h with h | h
          · rw [h]
            exact ⟨by omega, by omega⟩
          · obtain ⟨ha, hb⟩ := hvalS o h
            exact ⟨ha, by omega⟩
      · rw [hcheq]
        refine List.pairwise_append.mpr ⟨?_, ?_, ?_⟩
        · refine List.Pairwise.imp_of_mem ?_ hpwP
          intro a b ha hb hab
          show (keyOf sfin a).comp (keyOf sfin b) = .lt
          rw [hkeq a (List.mem_append_left _ ha), hkeq b (List.mem_append_left _ hb)]
          exact hab
        · refine List.pairwise_cons.mpr ⟨?_, ?_⟩
          · intro o ho
            show (keyOf sfin (s.nodes.length + 1)).comp (keyOf sfin o) = .lt
            rw [hkeyx, hkeq o (List.mem_append_right _ ho)]
            have hng := hS o ho
            have hne : key.comp (keyOf s o) ≠ .eq :=
              hnoeq o ((chainL_sublist_zero hWF lv hlv).subset
                (by rw [hsplit]; exact List.mem_append_right _ ho))
            cases hcc : key.comp (keyOf s o) with
            | lt => rfl
            | eq => exact absurd hcc hne
            | gt => exact absurd hcc hng
          · refine List.Pairwise.imp_of_mem ?_ hpwS
            intro a b ha hb hab
            show (keyOf sfin a).comp (keyOf sfin b) = .lt
            rw [hkeq a (List.mem_append_right _ ha), hkeq b (List.mem_append_right _ hb)]
            exact hab
        · intro a ha b' hb'
          rcases List.mem_cons.mp hb' with hb1 | hb1
          · rw [hb1]
            show (keyOf sfin a).comp (keyOf sfin (s.nodes.length + 1)) = .lt
            rw [hkeyx, hkeq a (List.mem_append_left _ ha)]
            exact (Key.comp_gt_iff _ _).mp (hP a ha)
          · have hcr := hcross a ha b' hb1
            show (keyOf sfin a).comp (keyOf sfin b') = .lt
            rw [hkeq a (List.mem_append_left _ ha), hkeq b' (List.mem_append_right _ hb1)]
            exact hcr
      · rw [hPfilt, hSfilt]
        exact hcheq
      · rw [hPfilt, hSfilt]
        exact hsplit.symm
    · have hge : randomHeight draws ≤ lv := by omega
      have hicf : IsChainFrom sfin lv (nextOffS sfin headOff lv) (chainL s lv) := by
        have hstart : nextOffS sfin headOff lv = nextOffS s headOff lv :=
          hES headOff lv (by omega) (fun hc => absurd hc.1 (by omega))
        rw [hstart]
        exact isChainFrom_congr hic
          (fun o ho => hES o lv (hval o ho).2 (fun hc => absurd hc.1 (by omega)))
      have hcheq : chainL sfin lv = chainL s lv := by
        show chainAux sfin lv (sfin.nodes.length + 1) (nextOffS sfin headOff lv) = _
        refine chainAux_of_isChainFrom sfin lv _ _ _ hicf ?_
        have := chainL_length_le hWF hlv
        rw [hfinlen]
        omega
      refine ⟨⟨?_, ?_, ?_⟩, fun hlt => absurd hlt hsplc, fun _ => hcheq⟩
      · rw [hcheq]
        exact hicf
      · rw [hcheq, hfinlen]
        intro o ho
        obtain ⟨ha, hb⟩ := hval o ho
        exact ⟨ha, by omega⟩
      · rw [hcheq]
        refine List.Pairwise.imp_of_mem ?_ hpw
        intro a b ha hb hab
        show (keyOf sfin a).comp (keyOf sfin b) = .lt
        rw [hkfin a (hval a ha).2, hkfin b (hval b hb).2]
        exact hab
  obtain ⟨heq0, hcat0⟩ := (hper 0 (by decide)).2.1 (by omega)
  refine ⟨sfin, hrun, ⟨?_, ?_, ?_, ?_, ?_, ?_, ?_, ?_⟩, hfinlen, hkeyx, hvalx, ?_, ?_, hpres⟩
  · intro hc
    have h := hfinlen
    rw [hc, List.length_nil] at h
    omega
  · rw [hfinH]
    exact hH1
  · rw [hfinH]
    exact hH2
  · intro lvl hlvl
    exact (hper lvl hlvl).1
  · intro lvl hlvl hge
    rw [hfinH] at hge
    rw [(hper lvl hlvl).2.2 (by omega)]
    exact WF.above hWF lvl hlvl (by omega)
  · intro lvl hlvl h0
    rcases Nat.lt_or_ge lvl (randomHeight draws) with hlt | hge
    · obtain ⟨heq1, _⟩ := (hper lvl hlvl).2.1 hlt
      obtain ⟨heq2, _⟩ := (hper (lvl - 1) (by omega)).2.1 (by omega)
      rw [heq1, heq2]
      have hsubs := WF.sub hWF lvl hlvl h0
      exact List.Sublist.append (hsubs.filter _) (List.Sublist.cons₂ _ (hsubs.filter _))
    · have heqlvl := (hper lvl hlvl).2.2 hge
      rcases Nat.lt_or_ge (lvl - 1) (randomHeight draws) with hlt1 | hge1
      · obtain ⟨heq2, hcat⟩ := (hper (lvl - 1) (by omega)).2.1 hlt1
        rw [heqlvl, heq2]
        refine (WF.sub hWF lvl hlvl h0).trans ?_
        have hsub2 := List.Sublist.append
          (List.Sublist.refl ((chainL s (lvl - 1)).filter
            (fun o => key.comp (keyOf s o) == Ordering.gt)))
          (List.Sublist.cons (s.nodes.length + 1)
            (List.Sublist.refl ((chainL s (lvl - 1)).filter
              (fun o => key.comp (keyOf s o) != Ordering.gt))))
        rw [hcat] at hsub2
        exact hsub2
      · rw [heqlvl, (hper (lvl - 1) (by omega)).2.2 hge1]
        exact WF.sub hWF lvl hlvl h0
  · intro o ho h2o
    rw [heq0]
    rcases Nat.lt_or_ge o (s.nodes.length + 1) with hlt | hge
    · have hmem := WF.complete hWF o (by omega) h2o
      rw [← hcat0] at hmem
      rcases List.mem_append.mp hmem with h | h
      · exact List.mem_append_left _ h
      · exact List.mem_append_right _ (List.mem_cons_of_mem _ h)
    · have hoe : o = s.nodes.length + 1 := by omega
      rw [hoe]
      exact List.mem_append_right _ (List.mem_cons_self _ _)
  · intro o ho h1o
    exact htows o (by omega) h1o
  · rw [heq0]
    exact List.mem_append_right _ (List.mem_cons_self _ _)
  · intro o homem hone
    rw [heq0] at homem
    rcases List.mem_append.mp homem with h | h
    · obtain ⟨hmemc, hpred⟩ := List.mem_filter.mp h
      rw [hkfin o ((WF.chainOK hWF 0 (by decide)).2.1 o hmemc).2]
      have hgt := (ordering_beq_iff _ _).mp hpred
      rw [hgt]
      decide
    · rcases List.mem_cons.mp h with h | h
      · exact absurd h hone
      · obtain ⟨hmemc, _⟩ := List.mem_filter.mp h
        rw [hkfin o ((WF.chainOK hWF 0 (by decide)).2.1 o hmemc).2]
        exact hnoeq o hmemc

/-! #### Forward iteration and the combined put effect -/

theorem iterTrace_of_isChainFrom {s : skiplist} :
    ∀ (l : List Nat) (n fuel : Nat), IsChainFrom s 0 n l → l.length < fuel →
      iterTrace s fuel { n := n } = l.map (keyOf s) := by
  intro l
  induction l with
  | nil =>
    intro n fuel hic hlen
    have hn : n = 0 := hic
    subst hn
    match fuel, hlen with
    | f + 1, _ => rfl
  | cons o rest ih =>
    intro n fuel hic hlen
    obtain ⟨h1, h2, h3⟩ := hic
    subst h1
    match fuel, hlen with
    | f + 1, hlen =>
      show iterTrace s (f + 1) { n := n } = keyOf s n :: rest.map (keyOf s)
      unfold iterTrace
      rw [if_pos (show iterValid { n := n } = true from decide_eq_true h2)]
      have hrest := ih (nextOffS s n 0) f h3
        (by rw [List.length_cons] at hlen; omega)
      rw [show iterNext s { n := n } = { n := nextOffS s n 0 } from rfl]
      rw [hrest]
      rfl

theorem forwardKeys_eq {s : skiplist} (hWF : WF s) :
    forwardKeys s = (chainL s 0).map (keyOf s) := by
  have hic := (WF.chainOK hWF 0 (by decide)).1
  have hlen := chainL_length_le hWF (show 0 < maxHeight by decide)
  have hlen0 : 1 ≤ s.nodes.length := List.length_pos.mpr (WF.nonnil hWF)
  show iterTrace s (s.nodes.length + 1) (seekToFirst s) = _
  rw [show seekToFirst s = { n := nextOffS s headOff 0 } from rfl]
  exact iterTrace_of_isChainFrom _ _ _ hic (by omega)

theorem countP_eq_one_of_unique : ∀ (l : List Nat) (p : Nat → Bool) (x : Nat),
    l.Nodup → x ∈ l → p x = true → (∀ o ∈ l, o ≠ x → p o = false) →
    l.countP p = 1 := by
  intro l p x hnd hx hpx hothers
  obtain ⟨l1, l2, hsplit⟩ := List.append_of_mem hx
  subst hsplit
  have hnds := List.nodup_append.mp hnd
  have hx1 : x ∉ l1 := fun hc => (hnds.2.2 hc (List.mem_cons_self _ _))
  have hx2 : x ∉ l2 := by
    have hp := List.pairwise_cons.mp hnds.2.1
    intro hc
    exact (hp.1 x hc) rfl
  have hz1 : l1.countP p = 0 := by
    rw [List.countP_eq_zero]
    intro a ha
    have hne : a ≠ x := fun hc => hx1 (hc ▸ ha)
    rw [hothers a (List.mem_append_left _ ha) hne]
    simp
  have hz2 : l2.countP p = 0 := by
    rw [List.countP_eq_zero]
    intro a ha
    have hne : a ≠ x := fun hc => hx2 (hc ▸ ha)
    rw [hothers a (List.mem_append_right _ (List.mem_cons_of_mem _ ha)) hne]
    simp
  rw [List.countP_append, List.countP_cons, hz1, hz2, hpx]
  rfl

/-- One nil-hint put on a well-formed list: it succeeds, preserves
well-formedness, leaves the put key present as the unique compare-equal base
node carrying the stored value, and allocates nothing when the key was
already present. -/
theorem Put_step {s : skiplist} (hWF : WF s) (d : List Nat) (key : Key)
    (v : ValueStruct) :
    ∃ s1 : skiplist, Put s d key v = some (s1, none) ∧ WF s1 ∧
      (∃ off, off ∈ chainL s1 0 ∧ key.comp (keyOf s1 off) = .eq ∧
        valOf s1 off = storedVal v ∧
        (∀ o ∈ chainL s1 0, o ≠ off → key.comp (keyOf s1 o) ≠ .eq)) ∧
      ((∃ off ∈ chainL s 0, key.comp (keyOf s off) = .eq) →
        s1.nodes.length = s.nodes.length) := by
  have hH1 : 1 ≤ max s.height (randomHeight d) :=
    le_trans hWF.height_pos (Nat.le_max_left _ _)
  have hH2 : max s.height (randomHeight d) ≤ maxHeight :=
    Nat.max_le.mpr ⟨hWF.height_le, (randomHeight_bounds d).2⟩
  by_cases hex : ∃ off ∈ chainL s 0, key.comp (keyOf s off) = .eq
  · obtain ⟨off, hoffmem, hoffeq, heq⟩ := PutWithHint_overwrite hWF d key v hex
    have hoffv := (WF.chainOK hWF 0 (by decide)).2.1 off hoffmem
    have hWFh : WF { s with height := max s.height (randomHeight d) } :=
      WF_set_height hWF hH1 hH2 (Nat.le_max_left _ _)
    have hch0 : chainL { height := max s.height (randomHeight d), nodes := setValueAt s.nodes off v } 0 = chainL s 0 :=
      (chainL_setValueAt { s with height := max s.height (randomHeight d) } off v 0).trans
        (chainL_irrel_height s (max s.height (randomHeight d)) 0)
    have hk1 : ∀ o, keyOf { height := max s.height (randomHeight d), nodes := setValueAt s.nodes off v } o = keyOf s o :=
      fun o => (keyOf_setValueAt { s with height := max s.height (randomHeight d) } off o v).trans
        (keyOf_irrel_height s (max s.height (randomHeight d)) o)
    refine ⟨_, heq, ?_, ⟨off, ?_, ?_, ?_, ?_⟩, fun _ => ?_⟩
    · exact WF_setValueAt hWFh off v
    · rw [hch0]
      exact hoffmem
    · rw [hk1 off]
      exact hoffeq
    · exact valOf_setValueAt_self v (by omega) hoffv.2
    · intro o homem hone
      rw [hch0] at homem
      rw [hk1 o]
      intro hc
      exact hone (eq_node_unique hWF homem hoffmem hc hoffeq)
    · exact length_setValueAt s.nodes off v
  · have hnone : ∀ o ∈ chainL s 0, key.comp (keyOf s o) ≠ .eq :=
      fun o ho hc => hex ⟨o, ho, hc⟩
    obtain ⟨sfin, hrun, hWF2, hlen, hkeyx, hvalx, hmem, hunique, hpres⟩ :=
      PutWithHint_insert hWF d key v hnone
    refine ⟨sfin, hrun, hWF2, ⟨s.nodes.length + 1, hmem, ?_, hvalx, hunique⟩, ?_⟩
    · rw [hkeyx]
      exact Key.comp_self key
    · intro hc
      exact absurd hc hex

/-- C6: for every draw stream the sampled height lies in `[1, 20]`, and every
successful `PutWithHint` replaces the list height with the maximum of the old
height and the sampled height: the height never decreases and stays at most
`maxHeight` whenever it was. -/
theorem height_monotone_and_bounded :
    (∀ draws, 1 ≤ randomHeight draws ∧ randomHeight draws ≤ maxHeight) ∧
    (∀ s draws key v ho s' ho', PutWithHint s draws key v ho = some (s', ho') →
      s'.height = max s.height (randomHeight draws) ∧
      s.height ≤ s'.height ∧
      (s.height ≤ maxHeight → s'.height ≤ maxHeight)) := by
  refine ⟨randomHeight_bounds, ?_⟩
  intro s draws key v ho s' ho' hres
  have h := PutWithHint_height s draws key v ho s' ho' hres
  refine ⟨h, ?_, ?_⟩
  · rw [h]; exact Nat.le_max_left _ _
  · intro hb; rw [h]; exact Nat.max_le.mpr ⟨hb, (randomHeight_bounds draws).2⟩

/-- C6 witness: a concrete successful put realizing the hypotheses. -/
theorem height_monotone_and_bounded_witness :
    (resSk c10s).height = max newSkiplist.height (randomHeight (dBig :: [])) := by
  have hres : PutWithHint newSkiplist (dBig :: []) ka va none = some (resSk c10s, none) := by
    decide
  exact (height_monotone_and_bounded.2 newSkiplist (dBig :: []) ka va none
    (resSk c10s) none hres).1

/-- C1 failing input: three `PutWithHint` calls through one caller hint
(put `"c"@1`, put `"a"@1`, put `"c"@1` again, all with sampled height 1)
leave the list with four nodes, two of which are distinct nodes holding the
same (user key, Version) pair `"c"@1`: the second put of `"c"@1` allocated a
fresh node and relinked the base level instead of overwriting in place. -/
theorem putWithHint_inserts_duplicate_key :
    (c1run.map (fun p => ((p.1.nodes.drop 1).countP (fun nd => nd.key == kc),
      p.1.nodes.length))) = some (2, 4) := by decide

/-- C5 failing input: on the same three-put state, forward iteration from
`SeekToFirst` visits the live pair `"c"@1` twice, in non-strictly-ascending
order. -/
theorem forward_iteration_visits_duplicate :
    (c1run.map (fun p => forwardKeys p.1)) = some (ka :: kc :: kc :: []) := by decide

/-- C9 counterexample: after a first `Delete` the handle holds no arena; a
second `Delete` invokes `arena.reset` through the nil arena reference and
faults instead of succeeding, so it does not leave the skiplist in the same
torn-down state without failing. -/
theorem delete_twice_faults : Delete (Delete (some newSkiplist)).join = none := by decide

/-- C9 amended: a first `Delete` on a live skiplist tears it down (the arena
and head references are nulled and `valid` becomes false), but `Delete` is
not idempotent: a second call faults on the nil arena reference. -/
theorem delete_tears_down_not_idempotent :
    (∀ s : skiplist, Delete (some s) = some none ∧ validRef none = false) ∧
    Delete none = none := by
  exact ⟨fun s => ⟨rfl, rfl⟩, rfl⟩

/-- C10 amended: through a nil or freshly zeroed hint, `GetWithHint` agrees
with `Get` whenever the list holds a node whose key compares equal to the
query, and returns the empty value whenever it does not (even where `Get`
resolves an older same-user-key version). -/
theorem getWithHint_fresh_agrees_on_exact_match {s : skiplist} (hWF : WF s)
    (key : Key) (ho : Option hint) (hho : ho = none ∨ ho = some freshHint) :
    ((∃ off ∈ chainL s 0, key.comp (keyOf s off) = .eq) →
      (GetWithHint s key ho).map Prod.fst = Get s key) ∧
    ((∀ off ∈ chainL s 0, key.comp (keyOf s off) ≠ .eq) →
      (GetWithHint s key ho).map Prod.fst = some emptyVS) := by
  have h0eq : ho.getD freshHint = freshHint := by
    rcases hho with h | h <;> subst h <;> rfl
  have hHpos : 0 < s.height := hWF.height_pos
  have hcrh := crh_fresh s key s.height hHpos
  have hfl : freshHint.prev.length = maxHeight + 1 := by
    show (List.replicate (maxHeight + 1) 0).length = maxHeight + 1
    rw [List.length_replicate]
  have hfln : freshHint.next.length = maxHeight + 1 := by
    show (List.replicate (maxHeight + 1) 0).length = maxHeight + 1
    rw [List.length_replicate]
  obtain ⟨h2, hp2, hn2, hup2, hres⟩ :=
    spliceLoop_master hWF key s.height
      { freshHint with
        prev := freshHint.prev.set s.height headOff
        next := freshHint.next.set s.height 0
        height := s.height, hitHeight := s.height }
      hWF.height_le
      (by rw [List.length_set]; exact hfl)
      (by rw [List.length_set]; exact hfln)
      (fun h0 => Or.inl (getD_set_self _ _ _ _
        (by rw [hfl]; have := hWF.height_le; omega)))
  simp only [GetWithHint]
  rw [h0eq, hcrh]
  dsimp only
  rw [if_pos hHpos]
  obtain ⟨hic0, hval0, hpw0⟩ := WF.chainOK hWF 0 (by decide)
  rcases hres with ⟨off, lv, heqn, hlv, hoffmem, hoffeq⟩ | ⟨heqn, hnoeq, hsps⟩
  · rw [heqn]
    dsimp only
    have hoffne : off ≠ 0 := by
      have := (hval0 off hoffmem).1
      omega
    rw [if_neg hoffne]
    have hkeq : key = keyOf s off := (Key.comp_eq_iff _ _).mp hoffeq
    have hcond : key.sameUserKey (keyOf s off) = true := by
      rw [← hkeq]; exact Key.sameUserKey_self key
    rw [if_pos hcond]
    constructor
    · intro _
      rw [Get_spec hWF key]
      unfold getSpec
      rw [find_ge_of_eq_mem hWF hoffmem hoffeq]
      dsimp only
      rw [if_pos hcond]
      rfl
    · intro hnone
      exact absurd hoffeq (hnone off hoffmem)
  · rw [heqn]
    dsimp only
    constructor
    · intro hex
      obtain ⟨off, hoffmem, hoffeq⟩ := hex
      exact absurd hoffeq (hnoeq hHpos off hoffmem)
    · intro _
      rfl

/-- Witness for the C10 amended theorem: on the one-node list holding
`"a"@1`, querying `"a"@1` with a nil hint, `GetWithHint` agrees with `Get`. -/
theorem getWithHint_fresh_agrees_on_exact_match_witness :
    (GetWithHint (resSk c10s) ka none).map Prod.fst = Get (resSk c10s) ka :=
  (getWithHint_fresh_agrees_on_exact_match (by decide) ka none (Or.inl rfl)).1
    (by decide)

/-- C10 counterexample: on the list holding only `"a"@1` (built by a put with
a nil hint), `Get "a"@2` resolves the older version `"a"@1` and returns its
value, while `GetWithHint "a"@2` with a nil hint finds no exact-key splice
match and returns the empty value. -/
theorem getWithHint_differs_from_get :
    (c10s.map (fun p => (GetWithHint p.1 ka2 none).map Prod.fst)) = some (some emptyVS) ∧
    (c10s.map (fun p => Get p.1 ka2)) = some (some { va with version := 1 }) ∧
    ({ va with version := 1 } : ValueStruct) ≠ emptyVS := by decide

/-- C4: sequentially, putting `k ↦ v1` then `k ↦ v2` through the nil-hint
`Put` API leaves a state where `Get k` returns `v2` (its Version resolved
from `k`, as the arena encoding drops it), the second put allocates no node,
and forward iteration visits exactly one entry whose key is `k`. -/
theorem put_put_get {s : skiplist} (hWF : WF s) (key : Key) (v1 v2 : ValueStruct)
    (d1 d2 : List Nat) :
    ∃ s1 s2 : skiplist,
      Put s d1 key v1 = some (s1, none) ∧
      Put s1 d2 key v2 = some (s2, none) ∧
      Get s2 key = some { v2 with version := key.version } ∧
      s2.nodes.length = s1.nodes.length ∧
      (forwardKeys s2).countP (fun kk => kk == key) = 1 := by
  obtain ⟨s1, hput1, hWF1, ⟨off1, hm1, he1, hval1, hu1⟩, _⟩ := Put_step hWF d1 key v1
  obtain ⟨s2, hput2, hWF2, ⟨off2, hm2, he2, hval2, hu2⟩, hlen2⟩ := Put_step hWF1 d2 key v2
  have hkeq : key = keyOf s2 off2 := (Key.comp_eq_iff _ _).mp he2
  refine ⟨s1, s2, hput1, hput2, ?_, hlen2 ⟨off1, hm1, he1⟩, ?_⟩
  · rw [Get_spec hWF2 key]
    unfold getSpec
    rw [find_ge_of_eq_mem hWF2 hm2 he2]
    dsimp only
    have hcond : key.sameUserKey (keyOf s2 off2) = true := by
      rw [← hkeq]
      exact Key.sameUserKey_self key
    rw [if_pos hcond, hval2, ← hkeq]
    rfl
  · rw [forwardKeys_eq hWF2, List.countP_map]
    refine countP_eq_one_of_unique (chainL s2 0) _ off2
      (nodup_of_pairwise_offLt (WF.chainOK hWF2 0 (by decide)).2.2) hm2 ?_ ?_
    · show (keyOf s2 off2 == key) = true
      rw [beq_iff_eq]
      exact hkeq.symm
    · intro o ho hne
      show (keyOf s2 o == key) = false
      rw [beq_eq_false_iff_ne]
      intro hc
      exact hu2 o ho hne ((Key.comp_eq_iff key (keyOf s2 o)).mpr hc.symm)

/-- C4 witness: two concrete puts of `"a"@1` into the fresh list, realizing
the theorem's hypotheses at a concrete well-formed state. -/
theorem put_put_get_witness :
    ∃ s1 s2 : skiplist,
      Put newSkiplist (dBig :: []) ka va = some (s1, none) ∧
      Put s1 (dBig :: []) ka vc1 = some (s2, none) ∧
      Get s2 ka = some { vc1 with version := ka.version } ∧
      s2.nodes.length = s1.nodes.length ∧
      (forwardKeys s2).countP (fun kk => kk == ka) = 1 :=
  put_put_get (by decide) ka va vc1 (dBig :: []) (dBig :: [])

end Memtable
